import Mathlib

/-!
Verification of the graph-algorithms toolkit (`src/graph/util.rs`) against its
natural-language specification.

The algorithms under verification (`euler_path`, `dijkstra`, `dfs`,
`floyd_warshall`, `min_spanning_tree`) are translated directly from
`src/graph/util.rs`.  The graph core (`DirectedGraph` / `UndirectedGraph`
construction, `add_edge`, `add_weighted_edge`, `adj_list`) and the
`DisjointSets` structure live in `graph.rs` / `disjoint_set.rs`, which are not
part of the provided sources; those parts are modelled from the specification
(sections 3, 4.1, 4.2) and are marked `Modelled from the spec:` below.

Machine integers are modelled as `Nat` / `Int` with explicit reductions
modulo `2 ^ 64` where the Rust code performs wrapping `u64` / `i64`
arithmetic.  A Rust indexing panic (out-of-bounds slice access) is modelled
by an explicit error value, never by silently defaulting.
-/

set_option maxRecDepth 8000

namespace RustArs

/-- Modelled from the spec: the shared graph shape (`graph.rs` is absent from
the sources).  `num_v` is fixed at construction, `edges` is the ordered
sequence of `(source, dest)` pairs (the position is the edge index), and
`edge_weights` is parallel to `edges`. -/
structure Graph where
  num_v : Nat
  edges : List (Nat × Nat)
  edge_weights : List Int
  deriving DecidableEq

/-- Modelled from the spec: `Construct(num_vertices, edge_count_hint)` gives an
empty graph; the capacity hint does not affect semantics. -/
def Graph.new (n : Nat) (_hint : Nat) : Graph :=
  { num_v := n, edges := [], edge_weights := [] }

/-- Modelled from the spec: `add_weighted_edge(u, v, weight)` appends `(u,v)`
to `edges` and the weight to `edge_weights`, assigning the next sequential
edge index. -/
def Graph.add_weighted_edge (g : Graph) (u v : Nat) (w : Int) : Graph :=
  { g with edges := g.edges ++ [(u, v)], edge_weights := g.edge_weights ++ [w] }

/-- Modelled from the spec: unweighted `add_edge` defaults the weight to 1
(spec section 9, open-question note; no algorithm proved here depends on the
default). -/
def Graph.add_edge (g : Graph) (u v : Nat) : Graph :=
  g.add_weighted_edge u v 1

def Graph.num_e (g : Graph) : Nat := g.edges.length

/-- Source endpoint of edge `e` (defaulting out-of-range reads; all uses are
guarded by `e < num_e`). -/
def Graph.esrc (g : Graph) (e : Nat) : Nat := (g.edges.getD e (0, 0)).1

/-- Destination endpoint of edge `e`. -/
def Graph.etgt (g : Graph) (e : Nat) : Nat := (g.edges.getD e (0, 0)).2

/-- Modelled from the spec: `adj_list(u)` produces the `(edge_index, neighbor)`
pairs of the directed variant, in edge-insertion order: exactly the edges
whose source is `u`, by ascending edge index. -/
def Graph.adj_list (g : Graph) (u : Nat) : List (Nat × Nat) :=
  ((List.range g.num_e).filter (fun e => g.esrc e = u)).map (fun e => (e, g.etgt e))

/-- Well-formedness guaranteed by the construction interface: the weight list
is parallel to the edge list and every endpoint is a valid vertex (the spec
makes out-of-range `add_edge` fail fast, so constructed graphs satisfy
this). -/
def Graph.WF (g : Graph) : Prop :=
  g.edge_weights.length = g.edges.length ∧
    ∀ p ∈ g.edges, p.1 < g.num_v ∧ p.2 < g.num_v

instance (g : Graph) : Decidable g.WF := by
  unfold Graph.WF
  infer_instance

/-! ## Dijkstra (`src/graph/util.rs`, lines 30-48)

```rust
pub fn dijkstra(&self, u: usize) -> Vec<u64> {
    let mut dist = vec![u64::max_value(); self.edge_weights.len()];
    let mut heap = std::collections::BinaryHeap::new();
    dist[u] = 0;
    heap.push((Reverse(0), 0));
    while let Some((Reverse(dist_u), u)) = heap.pop() {
        if dist[u] == dist_u {
            for (e, v) in self.adj_list(u) {
                let dist_v = dist_u + self.edge_weights[*e] as u64;
                if dist[*v] > dist_v {
                    dist[*v] = dist_v;
                    heap.push((Reverse(dist_v), *v));
                }
            }
        }
    }
    dist
}
```

The heap holds `(Reverse(dist), vertex)` pairs; `pop` returns a greatest
element under the derived lexicographic order, i.e. least distance and, among
equal distances, greatest vertex index.  Equal pairs are indistinguishable,
so modelling `pop` as "select the greatest element, remove its first
occurrence" is extensionally faithful.  A `u64` is a `Nat` reduced modulo
`2 ^ 64`; `i64 as u64` reinterprets the two's-complement bit pattern.
-/

/-- Largest `u64` value, `u64::max_value()`. -/
def uMAX : Nat := 2 ^ 64 - 1

/-- Reinterpretation of an `i64` value as a `u64` (`w as u64`). -/
def toU64 (w : Int) : Nat := (w % (2 ^ 64 : Int)).toNat

/-- The heap order: `heapLeB a b` holds when `b` is popped no later than `a`,
i.e. `(Reverse a.1, a.2) ≤ (Reverse b.1, b.2)` lexicographically. -/
def heapLeB (a b : Nat × Nat) : Bool :=
  Nat.blt b.1 a.1 || (Nat.beq a.1 b.1 && Nat.ble a.2 b.2)

/-- Pop a greatest element of the binary heap (least distance, ties to the
greatest vertex index), returning it and the remaining heap. -/
def popMax (h : List (Nat × Nat)) : Option ((Nat × Nat) × List (Nat × Nat)) :=
  match h with
  | [] => none
  | x :: xs =>
    let m := xs.foldl (fun best y => if heapLeB best y then y else best) x
    some (m, h.erase m)

/-- Result of a `dijkstra` run: either an out-of-bounds indexing fault
(a Rust panic) or the returned distance vector. -/
inductive DijkstraOut where
  | oob : DijkstraOut
  | done : List Nat → DijkstraOut
  deriving DecidableEq

/-- The inner `for (e, v) in self.adj_list(u)` relaxation loop.  `none`
models an out-of-bounds indexing panic (`edge_weights[*e]` or `dist[*v]`). -/
def relaxAll (g : Graph) (dist_u : Nat) :
    List (Nat × Nat) → List Nat → List (Nat × Nat) →
      Option (List Nat × List (Nat × Nat))
  | [], dist, heap => some (dist, heap)
  | (e, v) :: rest, dist, heap =>
    if he : e < g.edge_weights.length then
      let dist_v := (dist_u + toU64 (g.edge_weights.get ⟨e, he⟩)) % 2 ^ 64
      if hv : v < dist.length then
        if dist.get ⟨v, hv⟩ > dist_v then
          relaxAll g dist_u rest (dist.set v dist_v) ((dist_v, v) :: heap)
        else
          relaxAll g dist_u rest dist heap
      else none
    else none

/-- The `while let Some(..) = heap.pop()` loop, driven by fuel.  `none` means
the fuel ran out before the heap drained; every equation proved below has a
`some` right-hand side, certifying the chosen fuel sufficed, so the proved
values are fuel-independent. -/
def dijkstraLoop (g : Graph) :
    Nat → List Nat → List (Nat × Nat) → Option DijkstraOut
  | 0, _, _ => none
  | fuel + 1, dist, heap =>
    match popMax heap with
    | none => some (.done dist)
    | some ((dist_u, u), heap') =>
      if hu : u < dist.length then
        if dist.get ⟨u, hu⟩ = dist_u then
          match relaxAll g dist_u (g.adj_list u) dist heap' with
          | none => some .oob
          | some (dist', heap'') => dijkstraLoop g fuel dist' heap''
        else
          dijkstraLoop g fuel dist heap'
      else some .oob

/-- Fuel for the pop loop: comfortably more than the iterations any run in
this file needs; sufficiency is certified per-theorem by the `some` result. -/
def dijkstraFuel (g : Graph) : Nat :=
  (g.num_v + g.num_e + 2) * (g.num_e + 2)

/-- Translation of `DirectedGraph::dijkstra`.  Note two faithful oddities of
the source: `dist` is allocated with length `edge_weights.len()` (the edge
count), and the initial heap entry is `(Reverse(0), 0)` — vertex `0`
regardless of the source vertex `u`.  `dist[u] = 0` panics (`oob`) when
`u` is not a valid index of that vector. -/
def dijkstra (g : Graph) (u : Nat) : Option DijkstraOut :=
  let dist := List.replicate g.edge_weights.length uMAX
  if u < dist.length then
    dijkstraLoop g (dijkstraFuel g) (dist.set u 0) [(0, 0)]
  else some .oob

/-- Length of the distance vector `dijkstra` allocates, straight from
`vec![u64::max_value(); self.edge_weights.len()]`. -/
def dijkstraDistLen (g : Graph) : Nat :=
  (List.replicate g.edge_weights.length uMAX).length

/-! ## Concrete graphs from the tests -/

/-- The directed triangle of `test_dijkstra`: weighted edges
`(0→1, 7), (1→2, 3), (2→0, 5)` added in that order. -/
def gTriangleD : Graph :=
  (((Graph.new 3 3).add_weighted_edge 0 1 7).add_weighted_edge 1 2 3).add_weighted_edge 2 0 5

/-- The 2-vertex graph of claim C10: a single unweighted edge `0→1`. -/
def gTwo : Graph := (Graph.new 2 1).add_edge 0 1

/-- Claim C3: for the 3-vertex directed graph with weighted edges
`(0→1, 7), (1→2, 3), (2→0, 5)` added in that order, `dijkstra(0)` returns
exactly the vector `[0, 7, 10]`. -/
theorem dijkstra_triangle_from_zero :
    dijkstra gTriangleD 0 = some (.done [0, 7, 10]) := by
  decide

/-- Claim C10: `dijkstra` sizes its distance vector by the edge count
(`edge_weights.len()`), not the vertex count, yet indexes it by vertex;
on the 2-vertex graph with the single edge `0→1` and source 1 it faults with
an out-of-bounds index (`dist[1] = 0` on a vector of length 1) instead of
returning a distance vector. -/
theorem dijkstra_allocates_by_edge_count_and_faults :
    (∀ g : Graph, dijkstraDistLen g = g.edge_weights.length) ∧
      dijkstra gTwo 1 = some .oob := by
  constructor
  · intro g
    simp [dijkstraDistLen]
  · decide

/-- Claim C1 (failing input): on the triangle graph, `dijkstra(1)` returns
`[uMAX, 0, uMAX]` — the initial heap entry names vertex `0`, not the source,
so it is discarded as stale (`dist[0] = uMAX ≠ 0`) and no vertex is ever
relaxed, although vertex 2 is reachable from 1 at distance 3 and vertex 0 at
distance 8. -/
theorem dijkstra_triangle_from_one_wrong :
    dijkstra gTriangleD 1 = some (.done [uMAX, 0, uMAX]) ∧
      uMAX ≠ 8 ∧ uMAX ≠ 3 := by
  refine ⟨by decide, by decide, by decide⟩

/-! ## Floyd–Warshall (`src/graph/util.rs`, lines 65-89)

```rust
pub fn floyd_warshall(&self) -> Vec<Vec<i64>> {
    let numv = self.num_v();
    let mut dist = vec![vec![i64::MAX; numv]; numv];
    for v_idx in 0..numv {
        dist[v_idx][v_idx] = 0;
    }
    for (idx, edge) in self.edges.iter().enumerate() {
        dist[edge.0][edge.1] = self.edge_weights[idx];
    }
    for k in 0..numv {
        for i in 0..numv {
            for j in 0..numv {
                if dist[i][k] < i64::MAX && dist[k][j] < i64::MAX {
                    if dist[i][j] > dist[i][k] + dist[k][j] {
                        dist[i][j] = dist[i][k] + dist[k][j];
                    }
                }
            }
        }
    }
    dist
}
```

An `i64` is an `Int` in `[-2^63, 2^63)`; the unchecked addition (the source
comments that it does not check for overflow) wraps, modelled by `wrapI64`.
Matrix reads and writes use defaulting list access; in `floyd_warshall`
every index is either a loop index below `num_v` or an edge endpoint, which
`Graph.WF` keeps below `num_v`, so the defaults are never taken on the runs
and graphs considered here. -/

/-- The sentinel `i64::MAX`. -/
def i64MAX : Int := 2 ^ 63 - 1

/-- Wrapping two's-complement reduction of an integer into the `i64` range,
the release-mode behavior of the unchecked `i64` addition. -/
def wrapI64 (z : Int) : Int := ((z + 2 ^ 63) % 2 ^ 64) - 2 ^ 63

/-- Read `dist[i][j]` of a matrix held as a list of rows. -/
def mGet (m : List (List Int)) (i j : Nat) : Int := (m.getD i []).getD j 0

/-- Write `dist[i][j] = w` (a no-op when out of range; always in range under
`Graph.WF`, see above). -/
def mSet (m : List (List Int)) (i j : Nat) (w : Int) : List (List Int) :=
  m.set i ((m.getD i []).set j w)

/-- The `i64::MAX`-filled matrix with zeroed diagonal (first two loops). -/
def fwDiag (g : Graph) : List (List Int) :=
  (List.range g.num_v).foldl (fun d v => mSet d v v 0)
    (List.replicate g.num_v (List.replicate g.num_v i64MAX))

/-- The initialized matrix: diagonal zeros, then one write per edge in
insertion order (`dist[edge.0][edge.1] = weight`, last write wins). -/
def fwInit (g : Graph) : List (List Int) :=
  (List.range g.num_e).foldl
    (fun d e => mSet d (g.esrc e) (g.etgt e) (g.edge_weights.getD e 0))
    (fwDiag g)

/-- One innermost relaxation: guarded by both operands being strictly below
`i64::MAX`, then `dist[i][j] = min(dist[i][j], dist[i][k] + dist[k][j])`
with wrapping addition. -/
def fwInner (d : List (List Int)) (k i j : Nat) : List (List Int) :=
  if mGet d i k < i64MAX ∧ mGet d k j < i64MAX then
    if mGet d i j > wrapI64 (mGet d i k + mGet d k j) then
      mSet d i j (wrapI64 (mGet d i k + mGet d k j))
    else d
  else d

/-- One pass of the outer loop: the `i`, `j` double loop for a fixed
intermediate vertex `k`. -/
def fwK (g : Graph) (d : List (List Int)) (k : Nat) : List (List Int) :=
  (List.range g.num_v).foldl
    (fun d i =>
      (List.range g.num_v).foldl (fun d j => fwInner d k i j) d)
    d

/-- Translation of `DirectedGraph::floyd_warshall`: the triple loop over
`k`, `i`, `j` applied to the initialized matrix. -/
def floyd_warshall (g : Graph) : List (List Int) :=
  (List.range g.num_v).foldl (fwK g) (fwInit g)

/-! ## Disjoint sets and Kruskal (`src/graph/util.rs`, lines 94-106) -/

/-- Modelled from the spec: the disjoint-set structure is a parent array
sized to the vertex count (`disjoint_set.rs` is absent from the sources).
Union-by-rank and path compression affect only performance and the choice
of representative, never the partition or the boolean result of `merge`,
so the model omits them. -/
structure DisjointSets where
  parent : List Nat
  deriving DecidableEq

/-- Modelled from the spec: `Construct(n)` gives `n` singleton sets. -/
def DisjointSets.new (n : Nat) : DisjointSets := ⟨List.range n⟩

/-- Parent-chasing with fuel; the parent forest produced by `merge` is acyclic
with chains no longer than the array, so fuel `parent.length` always reaches
the root. -/
def DisjointSets.findAux (p : List Nat) : Nat → Nat → Nat
  | 0, x => x
  | fuel + 1, x =>
    let px := p.getD x x
    if px = x then x else DisjointSets.findAux p fuel px

/-- Modelled from the spec: `find(x)` returns the representative of the set
containing `x`. -/
def DisjointSets.find (ds : DisjointSets) (x : Nat) : Nat :=
  DisjointSets.findAux ds.parent ds.parent.length x

/-- Modelled from the spec: `merge(a, b)` unites the two sets and reports
whether they were previously distinct (`true` exactly when a merge was
performed). -/
def DisjointSets.merge (ds : DisjointSets) (a b : Nat) : Bool × DisjointSets :=
  let ra := ds.find a
  let rb := ds.find b
  if ra = rb then (false, ds)
  else (true, ⟨ds.parent.set ra rb⟩)

/-- Insertion step of the key-based sort. -/
def insertByKey (key : Nat → Int) (e : Nat) : List Nat → List Nat
  | [] => [e]
  | x :: xs => if key e ≤ key x then e :: x :: xs else x :: insertByKey key e xs

/-- The `sort_unstable_by_key` call, modelled as an insertion sort by key.
Rust's unstable slice sort makes no promise about the relative order of
equal keys; any comparison sort computes the same result whenever the keys
are pairwise distinct, which is the case in every use proved in this file. -/
def sortByKey (key : Nat → Int) : List Nat → List Nat
  | [] => []
  | x :: xs => insertByKey key x (sortByKey key xs)

/-- Translation of `UndirectedGraph::min_spanning_tree` (Kruskal): sort the
edge indices by ascending weight, then keep an edge exactly when merging its
endpoints reports they were in different components. -/
def min_spanning_tree (g : Graph) : List Nat :=
  let sorted := sortByKey (fun e => g.edge_weights.getD e 0)
    (List.range g.edge_weights.length)
  (sorted.foldl
    (fun (st : DisjointSets × List Nat) e =>
      let r := st.1.merge (g.esrc e) (g.etgt e)
      if r.1 then (r.2, st.2 ++ [e]) else (r.2, st.2))
    (DisjointSets.new g.num_v, [])).2

/-! ## Concrete graphs for Floyd–Warshall and the MST -/

/-- The 8-vertex graph of `test_floyd_warshall`. -/
def gFW : Graph :=
  (((((((((((Graph.new 8 10).add_weighted_edge 0 1 1).add_weighted_edge 1 2 2).add_weighted_edge
      1 4 4).add_weighted_edge 2 5 3).add_weighted_edge 4 3 6).add_weighted_edge
      5 4 10).add_weighted_edge 3 6 2).add_weighted_edge 4 6 7).add_weighted_edge
      6 7 2).add_weighted_edge 5 7 9)

/-- A 1-vertex graph with a single self-loop of weight 5. -/
def gSelfLoop : Graph := (Graph.new 1 1).add_weighted_edge 0 0 5

/-- The undirected triangle of `test_min_spanning_tree`: weighted edges
`(0-1, 7), (1-2, 3), (2-0, 5)` added in that order. -/
def gTriangleU : Graph :=
  (((Graph.new 3 6).add_weighted_edge 0 1 7).add_weighted_edge 1 2 3).add_weighted_edge 2 0 5

/-- Floyd–Warshall intermediate state on `gFW`: the initialized matrix. -/
def fwM0 : List (List Int) :=
  [[0, 1, i64MAX, i64MAX, i64MAX, i64MAX, i64MAX, i64MAX],
   [i64MAX, 0, 2, i64MAX, 4, i64MAX, i64MAX, i64MAX],
   [i64MAX, i64MAX, 0, i64MAX, i64MAX, 3, i64MAX, i64MAX],
   [i64MAX, i64MAX, i64MAX, 0, i64MAX, i64MAX, 2, i64MAX],
   [i64MAX, i64MAX, i64MAX, 6, 0, i64MAX, 7, i64MAX],
   [i64MAX, i64MAX, i64MAX, i64MAX, 10, 0, i64MAX, 9],
   [i64MAX, i64MAX, i64MAX, i64MAX, i64MAX, i64MAX, 0, 2],
   [i64MAX, i64MAX, i64MAX, i64MAX, i64MAX, i64MAX, i64MAX, 0]]

/-- Floyd–Warshall intermediate state on `gFW`: after the k = 0 pass. -/
def fwM1 : List (List Int) :=
  [[0, 1, i64MAX, i64MAX, i64MAX, i64MAX, i64MAX, i64MAX],
   [i64MAX, 0, 2, i64MAX, 4, i64MAX, i64MAX, i64MAX],
   [i64MAX, i64MAX, 0, i64MAX, i64MAX, 3, i64MAX, i64MAX],
   [i64MAX, i64MAX, i64MAX, 0, i64MAX, i64MAX, 2, i64MAX],
   [i64MAX, i64MAX, i64MAX, 6, 0, i64MAX, 7, i64MAX],
   [i64MAX, i64MAX, i64MAX, i64MAX, 10, 0, i64MAX, 9],
   [i64MAX, i64MAX, i64MAX, i64MAX, i64MAX, i64MAX, 0, 2],
   [i64MAX, i64MAX, i64MAX, i64MAX, i64MAX, i64MAX, i64MAX, 0]]

/-- Floyd–Warshall intermediate state on `gFW`: after the k = 1 pass. -/
def fwM2 : List (List Int) :=
  [[0, 1, 3, i64MAX, 5, i64MAX, i64MAX, i64MAX],
   [i64MAX, 0, 2, i64MAX, 4, i64MAX, i64MAX, i64MAX],
   [i64MAX, i64MAX, 0, i64MAX, i64MAX, 3, i64MAX, i64MAX],
   [i64MAX, i64MAX, i64MAX, 0, i64MAX, i64MAX, 2, i64MAX],
   [i64MAX, i64MAX, i64MAX, 6, 0, i64MAX, 7, i64MAX],
   [i64MAX, i64MAX, i64MAX, i64MAX, 10, 0, i64MAX, 9],
   [i64MAX, i64MAX, i64MAX, i64MAX, i64MAX, i64MAX, 0, 2],
   [i64MAX, i64MAX, i64MAX, i64MAX, i64MAX, i64MAX, i64MAX, 0]]

/-- Floyd–Warshall intermediate state on `gFW`: after the k = 2 pass. -/
def fwM3 : List (List Int) :=
  [[0, 1, 3, i64MAX, 5, 6, i64MAX, i64MAX],
   [i64MAX, 0, 2, i64MAX, 4, 5, i64MAX, i64MAX],
   [i64MAX, i64MAX, 0, i64MAX, i64MAX, 3, i64MAX, i64MAX],
   [i64MAX, i64MAX, i64MAX, 0, i64MAX, i64MAX, 2, i64MAX],
   [i64MAX, i64MAX, i64MAX, 6, 0, i64MAX, 7, i64MAX],
   [i64MAX, i64MAX, i64MAX, i64MAX, 10, 0, i64MAX, 9],
   [i64MAX, i64MAX, i64MAX, i64MAX, i64MAX, i64MAX, 0, 2],
   [i64MAX, i64MAX, i64MAX, i64MAX, i64MAX, i64MAX, i64MAX, 0]]

/-- Floyd–Warshall intermediate state on `gFW`: after the k = 3 pass. -/
def fwM4 : List (List Int) :=
  [[0, 1, 3, i64MAX, 5, 6, i64MAX, i64MAX],
   [i64MAX, 0, 2, i64MAX, 4, 5, i64MAX, i64MAX],
   [i64MAX, i64MAX, 0, i64MAX, i64MAX, 3, i64MAX, i64MAX],
   [i64MAX, i64MAX, i64MAX, 0, i64MAX, i64MAX, 2, i64MAX],
   [i64MAX, i64MAX, i64MAX, 6, 0, i64MAX, 7, i64MAX],
   [i64MAX, i64MAX, i64MAX, i64MAX, 10, 0, i64MAX, 9],
   [i64MAX, i64MAX, i64MAX, i64MAX, i64MAX, i64MAX, 0, 2],
   [i64MAX, i64MAX, i64MAX, i64MAX, i64MAX, i64MAX, i64MAX, 0]]

/-- Floyd–Warshall intermediate state on `gFW`: after the k = 4 pass. -/
def fwM5 : List (List Int) :=
  [[0, 1, 3, 11, 5, 6, 12, i64MAX],
   [i64MAX, 0, 2, 10, 4, 5, 11, i64MAX],
   [i64MAX, i64MAX, 0, i64MAX, i64MAX, 3, i64MAX, i64MAX],
   [i64MAX, i64MAX, i64MAX, 0, i64MAX, i64MAX, 2, i64MAX],
   [i64MAX, i64MAX, i64MAX, 6, 0, i64MAX, 7, i64MAX],
   [i64MAX, i64MAX, i64MAX, 16, 10, 0, 17, 9],
   [i64MAX, i64MAX, i64MAX, i64MAX, i64MAX, i64MAX, 0, 2],
   [i64MAX, i64MAX, i64MAX, i64MAX, i64MAX, i64MAX, i64MAX, 0]]

/-- Floyd–Warshall intermediate state on `gFW`: after the k = 5 pass. -/
def fwM6 : List (List Int) :=
  [[0, 1, 3, 11, 5, 6, 12, 15],
   [i64MAX, 0, 2, 10, 4, 5, 11, 14],
   [i64MAX, i64MAX, 0, 19, 13, 3, 20, 12],
   [i64MAX, i64MAX, i64MAX, 0, i64MAX, i64MAX, 2, i64MAX],
   [i64MAX, i64MAX, i64MAX, 6, 0, i64MAX, 7, i64MAX],
   [i64MAX, i64MAX, i64MAX, 16, 10, 0, 17, 9],
   [i64MAX, i64MAX, i64MAX, i64MAX, i64MAX, i64MAX, 0, 2],
   [i64MAX, i64MAX, i64MAX, i64MAX, i64MAX, i64MAX, i64MAX, 0]]

/-- Floyd–Warshall intermediate state on `gFW`: after the k = 6 pass. -/
def fwM7 : List (List Int) :=
  [[0, 1, 3, 11, 5, 6, 12, 14],
   [i64MAX, 0, 2, 10, 4, 5, 11, 13],
   [i64MAX, i64MAX, 0, 19, 13, 3, 20, 12],
   [i64MAX, i64MAX, i64MAX, 0, i64MAX, i64MAX, 2, 4],
   [i64MAX, i64MAX, i64MAX, 6, 0, i64MAX, 7, 9],
   [i64MAX, i64MAX, i64MAX, 16, 10, 0, 17, 9],
   [i64MAX, i64MAX, i64MAX, i64MAX, i64MAX, i64MAX, 0, 2],
   [i64MAX, i64MAX, i64MAX, i64MAX, i64MAX, i64MAX, i64MAX, 0]]

/-- Floyd–Warshall intermediate state on `gFW`: after the k = 7 pass. -/
def fwM8 : List (List Int) :=
  [[0, 1, 3, 11, 5, 6, 12, 14],
   [i64MAX, 0, 2, 10, 4, 5, 11, 13],
   [i64MAX, i64MAX, 0, 19, 13, 3, 20, 12],
   [i64MAX, i64MAX, i64MAX, 0, i64MAX, i64MAX, 2, 4],
   [i64MAX, i64MAX, i64MAX, 6, 0, i64MAX, 7, 9],
   [i64MAX, i64MAX, i64MAX, 16, 10, 0, 17, 9],
   [i64MAX, i64MAX, i64MAX, i64MAX, i64MAX, i64MAX, 0, 2],
   [i64MAX, i64MAX, i64MAX, i64MAX, i64MAX, i64MAX, i64MAX, 0]]

lemma fwInit_gFW : fwInit gFW = fwM0 := by
  decide

lemma fwK_gFW_0 : fwK gFW fwM0 0 = fwM1 := by
  decide

lemma fwK_gFW_1 : fwK gFW fwM1 1 = fwM2 := by
  decide

lemma fwK_gFW_2 : fwK gFW fwM2 2 = fwM3 := by
  decide

lemma fwK_gFW_3 : fwK gFW fwM3 3 = fwM4 := by
  decide

lemma fwK_gFW_4 : fwK gFW fwM4 4 = fwM5 := by
  decide

lemma fwK_gFW_5 : fwK gFW fwM5 5 = fwM6 := by
  decide

lemma fwK_gFW_6 : fwK gFW fwM6 6 = fwM7 := by
  decide

lemma fwK_gFW_7 : fwK gFW fwM7 7 = fwM8 := by
  decide

/-- Claim C5: on the 8-vertex test graph, the matrix returned by
`floyd_warshall` has `dist[0][7] = 14`. -/
theorem floyd_warshall_test_graph :
    mGet (floyd_warshall gFW) 0 7 = 14 := by
  have h : floyd_warshall gFW = fwM8 := by
    show (List.range gFW.num_v).foldl (fwK gFW) (fwInit gFW) = fwM8
    rw [(by decide : List.range gFW.num_v = [0, 1, 2, 3, 4, 5, 6, 7]), fwInit_gFW]
    simp only [List.foldl_cons, List.foldl_nil]
    rw [fwK_gFW_0, fwK_gFW_1, fwK_gFW_2, fwK_gFW_3, fwK_gFW_4, fwK_gFW_5,
      fwK_gFW_6, fwK_gFW_7]
  rw [h]
  decide

/-- Claim C4 (counterexample): the returned matrix does not always satisfy
`dist[i][i] = 0`.  Edge weights are written after the diagonal is zeroed, so
the weight-5 self-loop at vertex 0 leaves `dist[0][0] = 5 ≠ 0`. -/
theorem floyd_warshall_self_loop_diagonal :
    mGet (floyd_warshall gSelfLoop) 0 0 = 5 ∧ (5 : Int) ≠ 0 := by
  refine ⟨by decide, by decide⟩

/-- Claim C6: on the undirected triangle with weights 7, 3, 5 added in that
order, `min_spanning_tree()` returns exactly the edge indices `[1, 2]`,
whose weights sum to 8. -/
theorem min_spanning_tree_triangle :
    min_spanning_tree gTriangleU = [1, 2] ∧
      ((min_spanning_tree gTriangleU).map
          (fun e => gTriangleU.edge_weights.getD e 0)).sum = 8 := by
  refine ⟨by decide, by decide⟩

/-! ## Lazy depth-first traversal (`src/graph/util.rs`, lines 50-62 and 108-133)

```rust
pub fn dfs(&self, root: usize) -> DfsIterator {
    let mut visited = vec![false; self.num_v()];
    visited[root] = true;
    let adj_iters = (0..self.num_v()).map(|u| self.adj_list(u)).collect();
    DfsIterator { visited, stack: vec![root], adj_iters }
}

fn next(&mut self) -> Option<Self::Item> {
    loop {
        let &u = self.stack.last()?;
        for (e, v) in self.adj_iters[u].by_ref() {
            if !self.visited[*v] {
                self.visited[*v] = true;
                self.stack.push(*v);
                return Some((*e, *v));
            }
        }
        self.stack.pop();
    }
}
```

The stack is modelled head-first (the list head is `stack.last()` of the Rust
`Vec`).  The indexing `visited[*v]`, `visited[root]` and `adj_iters[u]` is
modelled with defaulting access; under `Graph.WF` and `root < num_v` every
such index is in range, so the defaults are never taken in the claims proved
about well-formed graphs. -/

/-- Iterator state of `DfsIterator`: the visited flags, the explicit stack
(head = top), and the per-vertex remaining adjacency cursor. -/
structure DfsState where
  visited : List Bool
  stack : List Nat
  adj_iters : List (List (Nat × Nat))
  deriving DecidableEq

/-- Translation of `DirectedGraph::dfs`: mark the root visited, push it, and
take a fresh adjacency cursor per vertex. -/
def dfs (g : Graph) (root : Nat) : DfsState :=
  { visited := (List.replicate g.num_v false).set root true
    stack := [root]
    adj_iters := (List.range g.num_v).map g.adj_list }

/-- The `for (e, v) in self.adj_iters[u].by_ref()` scan: consume cursor
entries until the first unvisited neighbor, returning it and the remaining
cursor; `none` when the cursor is exhausted with no unvisited neighbor. -/
def scanAdj (visited : List Bool) :
    List (Nat × Nat) → Option ((Nat × Nat) × List (Nat × Nat))
  | [] => none
  | (e, v) :: rest =>
    if visited.getD v false then scanAdj visited rest
    else some ((e, v), rest)

/-- The body of `DfsIterator::next` as a recursion over the stack: scan the
top vertex's cursor; on an unvisited neighbor mark, push and emit; on an
exhausted cursor pop and continue. -/
def dfsNextAux (visited : List Bool) (adj_iters : List (List (Nat × Nat))) :
    List Nat → Option ((Nat × Nat) × DfsState)
  | [] => none
  | u :: rest =>
    match scanAdj visited (adj_iters.getD u []) with
    | some ((e, v), l) =>
      some ((e, v), ⟨visited.set v true, v :: u :: rest, adj_iters.set u l⟩)
    | none => dfsNextAux visited (adj_iters.set u []) rest

/-- Translation of `DfsIterator::next`. -/
def dfsNext (st : DfsState) : Option ((Nat × Nat) × DfsState) :=
  dfsNextAux st.visited st.adj_iters st.stack

/-- The state after one call to `next` (unchanged once the iterator is
exhausted). -/
def dfsStep (st : DfsState) : DfsState :=
  match dfsNext st with
  | none => st
  | some (_, st') => st'

/-- The iterator state after `k` calls to `next` on `dfs(root)`. -/
def dfsStateAfter (g : Graph) (root k : Nat) : DfsState :=
  dfsStep^[k] (dfs g root)

/-- Total number of unconsumed adjacency-cursor entries. -/
def sumLens (adj : List (List (Nat × Nat))) : Nat :=
  (adj.map List.length).sum

/-- Termination measure for a full traversal: every successful `next`
strictly decreases it. -/
def dfsMeasure (st : DfsState) : Nat :=
  2 * sumLens st.adj_iters + st.stack.length

/-! ## Euler path (`src/graph/util.rs`, lines 9-27)

```rust
fn euler_recurse(u: usize, adj: &mut [AdjListIterator], edges: &mut Vec<usize>) {
    while let Some((e, v)) = adj[u].next() {
        Self::euler_recurse(*v, adj, edges);
        edges.push(*e);
    }
}
pub fn euler_path(&self, u: usize) -> Vec<usize> {
    let mut adj_iters = (0..self.num_v()).map(|u| self.adj_list(u)).collect::<Vec<_>>();
    let mut edges = Vec::with_capacity(self.num_e());
    Self::euler_recurse(u, &mut adj_iters, &mut edges);
    edges.reverse();
    edges
}
```

The recursion passes one shared, mutable cursor array; it is modelled by
threading the array through a fuelled recursion.  `none` signals exhausted
fuel; `euler_fuel` (one more than the total entry count) is proved
sufficient below, so the `[]` fallback in `euler_path` is never taken. -/

/-- Translation of `DirectedGraph::euler_recurse`, threading the shared
cursor array `adj` and the output vector `edges`, with fuel. -/
def euler_recurse :
    Nat → Nat → List (List (Nat × Nat)) → List Nat →
      Option (List (List (Nat × Nat)) × List Nat)
  | 0, _, _, _ => none
  | fuel + 1, u, adj, edges =>
    match adj.getD u [] with
    | [] => some (adj, edges)
    | (e, v) :: rest =>
      match euler_recurse fuel v (adj.set u rest) edges with
      | none => none
      | some (adj1, edges1) => euler_recurse fuel u adj1 (edges1 ++ [e])

/-- Fuel that always suffices for `euler_recurse` (proved below): recursion
depth never exceeds the number of unconsumed entries plus one. -/
def euler_fuel (adj : List (List (Nat × Nat))) : Nat :=
  sumLens adj + 1

/-- Translation of `DirectedGraph::euler_path`: fresh cursors for all
vertices, run the recursion from `u`, and reverse the recorded edges. -/
def euler_path (g : Graph) (u : Nat) : List Nat :=
  let adj_iters := (List.range g.num_v).map g.adj_list
  match euler_recurse (euler_fuel adj_iters) u adj_iters [] with
  | some (_, edges) => edges.reverse
  | none => []

/-! ## Concrete sanity checks replaying the remaining unit tests -/

/-- The 3-vertex graph of `test_euler`: unweighted edges
`(0→1), (1→0), (1→2), (2→1)` added in that order. -/
def gEuler : Graph :=
  ((((Graph.new 3 4).add_edge 0 1).add_edge 1 0).add_edge 1 2).add_edge 2 1

/-- The 4-vertex graph of `test_dfs`. -/
def gDfs : Graph :=
  ((((((Graph.new 4 6).add_edge 0 2).add_edge 2 0).add_edge 1 2).add_edge
      0 1).add_edge 3 3).add_edge 2 3

lemma euler_path_test : euler_path gEuler 0 = [0, 2, 3, 1] := by
  decide

/-! ## List helper lemmas -/

lemma getD_set_eq {α : Type} (l : List α) (i : Nat) (a d : α) (h : i < l.length) :
    (l.set i a).getD i d = a := by
  simp [List.getD_eq_getD_get?, List.get?_eq_getElem?, List.getElem?_set_self h]

lemma getD_set_ne {α : Type} (l : List α) {i j : Nat} (a d : α) (h : i ≠ j) :
    (l.set i a).getD j d = l.getD j d := by
  simp [List.getD_eq_getD_get?, List.get?_eq_getElem?, List.getElem?_set_ne h]

lemma getD_of_length_le {α : Type} (l : List α) (i : Nat) (d : α)
    (h : l.length ≤ i) : l.getD i d = d :=
  List.getD_eq_default l d h

lemma sumLens_cons (x : List (Nat × Nat)) (xs : List (List (Nat × Nat))) :
    sumLens (x :: xs) = x.length + sumLens xs := by
  simp [sumLens]

lemma sumLens_set (adj : List (List (Nat × Nat))) (u : Nat) (l : List (Nat × Nat))
    (h : u < adj.length) :
    sumLens (adj.set u l) + (adj.getD u []).length = sumLens adj + l.length := by
  induction adj generalizing u with
  | nil => simp at h
  | cons hd tl ih =>
    cases u with
    | zero =>
      simp only [List.set, List.getD_cons_zero, sumLens_cons]
      omega
    | succ u =>
      simp only [List.set, List.getD_cons_succ, sumLens_cons]
      have := ih u (by simpa using Nat.lt_of_succ_lt_succ h)
      omega

lemma sumLens_set_nil_le (adj : List (List (Nat × Nat))) (u : Nat) :
    sumLens (adj.set u []) ≤ sumLens adj := by
  induction adj generalizing u with
  | nil => simp
  | cons hd tl ih =>
    cases u with
    | zero => simp [List.set, sumLens_cons]
    | succ u =>
      simp only [List.set, sumLens_cons]
      exact Nat.add_le_add_left (ih u) _

/-! ## Termination of the DFS traversal -/

lemma scanAdj_cons (vis : List Bool) (e v : Nat) (rest : List (Nat × Nat)) :
    scanAdj vis ((e, v) :: rest) =
      if vis.getD v false = true then scanAdj vis rest
      else some ((e, v), rest) := rfl

lemma scanAdj_some (vis : List Bool) :
    ∀ (l l' : List (Nat × Nat)) (e v : Nat),
      scanAdj vis l = some ((e, v), l') →
      vis.getD v false = false ∧
        ∃ pre, l = pre ++ (e, v) :: l' ∧ ∀ q ∈ pre, vis.getD q.2 false = true := by
  intro l
  induction l with
  | nil => intro l' e v h; simp [scanAdj] at h
  | cons hd rest ih =>
    intro l' e v h
    obtain ⟨e₀, v₀⟩ := hd
    rw [scanAdj_cons] at h
    by_cases hv : vis.getD v₀ false = true
    · rw [if_pos hv] at h
      obtain ⟨hfalse, pre, hpre, hall⟩ := ih l' e v h
      refine ⟨hfalse, (e₀, v₀) :: pre, by simp [hpre], ?_⟩
      intro q hq
      rcases List.mem_cons.1 hq with h1 | h1
      · rw [h1]; exact hv
      · exact hall q h1
    · rw [if_neg hv] at h
      obtain ⟨h1, h2⟩ := Prod.mk.inj (Option.some.inj h)
      obtain ⟨h3, h4⟩ := Prod.mk.inj h1
      subst h3; subst h4; subst h2
      exact ⟨Bool.not_eq_true _ ▸ hv, [], by simp, by simp⟩

lemma scanAdj_none (vis : List Bool) :
    ∀ (l : List (Nat × Nat)), scanAdj vis l = none →
      ∀ q ∈ l, vis.getD q.2 false = true := by
  intro l
  induction l with
  | nil => intro _ q hq; simp at hq
  | cons hd rest ih =>
    intro h q hq
    obtain ⟨e₀, v₀⟩ := hd
    rw [scanAdj_cons] at h
    by_cases hv : vis.getD v₀ false = true
    · rw [if_pos hv] at h
      rcases List.mem_cons.1 hq with h1 | h1
      · rw [h1]; exact hv
      · exact ih h q h1
    · rw [if_neg hv] at h
      exact absurd h (by simp)

lemma getD_ne_nil_lt (adj : List (List (Nat × Nat))) (u : Nat)
    (h : adj.getD u [] ≠ []) : u < adj.length := by
  by_contra hc
  exact h (getD_of_length_le adj u [] (Nat.le_of_not_lt hc))

lemma dfsNextAux_measure :
    ∀ (stack : List Nat) (vis : List Bool) (adj : List (List (Nat × Nat)))
      (p : Nat × Nat) (st' : DfsState),
      dfsNextAux vis adj stack = some (p, st') →
      2 * sumLens st'.adj_iters + st'.stack.length <
        2 * sumLens adj + stack.length := by
  intro stack
  induction stack with
  | nil => intro vis adj p st' h; simp [dfsNextAux] at h
  | cons u rest ih =>
    intro vis adj p st' h
    unfold dfsNextAux at h
    cases hscan : scanAdj vis (adj.getD u []) with
    | some pl =>
      obtain ⟨⟨e, v⟩, l⟩ := pl
      rw [hscan] at h
      simp only [Option.some.injEq] at h
      obtain ⟨rfl, rfl⟩ := Prod.mk.inj h
      obtain ⟨-, pre, hpre, -⟩ := scanAdj_some vis _ _ _ _ hscan
      have hne : adj.getD u [] ≠ [] := by rw [hpre]; simp
      have hu : u < adj.length := getD_ne_nil_lt adj u hne
      have hset := sumLens_set adj u l hu
      have hlen : (adj.getD u []).length = pre.length + 1 + l.length := by
        rw [hpre]; simp only [List.length_append, List.length_cons]; omega
      simp only [List.length_cons]
      omega
    | none =>
      rw [hscan] at h
      have := ih vis (adj.set u []) p st' h
      have hle := sumLens_set_nil_le adj u
      simp only [List.length_cons]
      omega

lemma dfsNext_measure (st : DfsState) (p : Nat × Nat) (st' : DfsState)
    (h : dfsNext st = some (p, st')) : dfsMeasure st' < dfsMeasure st :=
  dfsNextAux_measure st.stack st.visited st.adj_iters p st' h

/-- Fully consuming the iterator, with fuel; returns the emitted pairs and
the final iterator state.  `dfsMeasure` strictly decreases at every emitted
pair, so fuel `dfsMeasure st + 1` always drains the iterator (proved in
`dfsRunFuel_drained`). -/
def dfsRunFuel : Nat → DfsState → List (Nat × Nat) × DfsState
  | 0, st => ([], st)
  | fuel + 1, st =>
    match dfsNext st with
    | none => ([], st)
    | some (p, st') =>
      let r := dfsRunFuel fuel st'
      (p :: r.1, r.2)

/-- The sequence of `(edge, vertex)` pairs obtained by fully consuming
`dfs(root)`. -/
def dfsTraversal (g : Graph) (root : Nat) : List (Nat × Nat) :=
  (dfsRunFuel (dfsMeasure (dfs g root) + 1) (dfs g root)).1

lemma dfsRunFuel_drained :
    ∀ (fuel : Nat) (st : DfsState), dfsMeasure st < fuel →
      dfsNext (dfsRunFuel fuel st).2 = none := by
  intro fuel
  induction fuel with
  | zero => intro st h; omega
  | succ fuel ih =>
    intro st h
    cases hn : dfsNext st with
    | none => simp [dfsRunFuel, hn]
    | some pst =>
      obtain ⟨p, st'⟩ := pst
      have hm := dfsNext_measure st p st' hn
      simp only [dfsRunFuel, hn]
      exact ih st' (by omega)

lemma dfs_test :
    (dfsTraversal gDfs 2).map Prod.snd = [0, 1, 3] := by
  decide

/-! ## Reachability -/

/-- Reachability along directed adjacency: the reflexive-transitive closure
of the edge relation exposed by `adj_list`. -/
inductive Reaches (g : Graph) : Nat → Nat → Prop where
  | refl (u : Nat) : Reaches g u u
  | step {u v w e : Nat} : Reaches g u v → (e, w) ∈ g.adj_list v → Reaches g u w

lemma Reaches.trans_right {g : Graph} {u v w : Nat}
    (h1 : Reaches g u v) (h2 : Reaches g v w) : Reaches g u w := by
  induction h2 with
  | refl => exact h1
  | step _ hm ih => exact .step ih hm

lemma mem_adj_list_iff {g : Graph} {v e w : Nat} :
    (e, w) ∈ g.adj_list v ↔ e < g.num_e ∧ g.esrc e = v ∧ g.etgt e = w := by
  simp only [Graph.adj_list, List.mem_map, List.mem_filter, List.mem_range,
    decide_eq_true_eq]
  constructor
  · rintro ⟨e', ⟨he', hsrc⟩, heq⟩
    obtain ⟨h1, h2⟩ := Prod.mk.inj heq
    subst h1
    exact ⟨he', hsrc, h2⟩
  · rintro ⟨he, hsrc, htgt⟩
    exact ⟨e, ⟨he, hsrc⟩, by rw [htgt]⟩

lemma Graph.endpoints_lt {g : Graph} (hwf : g.WF) {e : Nat} (he : e < g.num_e) :
    g.esrc e < g.num_v ∧ g.etgt e < g.num_v := by
  have hmem : g.edges.getD e (0, 0) ∈ g.edges := by
    rw [List.getD_eq_getElem _ _ he]
    exact List.getElem_mem he
  exact hwf.2 _ hmem

lemma Reaches.of_edge {g : Graph} {e : Nat} (he : e < g.num_e) :
    Reaches g (g.esrc e) (g.etgt e) :=
  .step (.refl _) (mem_adj_list_iff.2 ⟨he, rfl, rfl⟩)

/-! ## General facts about `floyd_warshall` -/

/-- An `n × n` matrix of rows. -/
def MDims (m : List (List Int)) (n : Nat) : Prop :=
  m.length = n ∧ ∀ row ∈ m, row.length = n

lemma foldl_invariant {α β : Type} (P : α → Prop) (f : α → β → α)
    (l : List β) (init : α) (h0 : P init)
    (hstep : ∀ a b, b ∈ l → P a → P (f a b)) : P (l.foldl f init) := by
  induction l generalizing init with
  | nil => exact h0
  | cons x xs ih =>
    exact ih (f init x) (hstep init x (List.mem_cons_self x xs)
      h0) (fun a b hb ha => hstep a b (List.mem_cons_of_mem x hb) ha)

lemma MDims.row_length {m : List (List Int)} {n : Nat} (h : MDims m n)
    {i : Nat} (hi : i < n) : (m.getD i []).length = n := by
  have hlen : i < m.length := by rw [h.1]; exact hi
  rw [List.getD_eq_getElem _ _ hlen]
  exact h.2 _ (List.getElem_mem hlen)

lemma MDims.mSet {m : List (List Int)} {n : Nat} (h : MDims m n)
    (a b : Nat) (w : Int) : MDims (mSet m a b w) n := by
  by_cases ha : a < n
  · constructor
    · rw [RustArs.mSet, List.length_set, h.1]
    · intro row hrow
      rcases List.mem_or_eq_of_mem_set hrow with h1 | h1
      · exact h.2 _ h1
      · rw [h1, List.length_set]
        exact h.row_length ha
  · have hnoop : RustArs.mSet m a b w = m := by
      unfold RustArs.mSet
      exact List.set_eq_of_length_le (by rw [h.1]; omega)
    rw [hnoop]
    exact h

lemma mGet_mSet {m : List (List Int)} {n : Nat} (h : MDims m n)
    {a b i j : Nat} (w : Int) (ha : a < n) (hi : i < n) (hj : j < n) :
    mGet (mSet m a b w) i j = if a = i ∧ b = j then w else mGet m i j := by
  unfold mGet RustArs.mSet
  by_cases hai : a = i
  · subst hai
    rw [getD_set_eq _ _ _ _ (by rw [h.1]; exact ha)]
    by_cases hbj : b = j
    · subst hbj
      rw [getD_set_eq _ _ _ _ (by rw [h.row_length ha]; exact hj)]
      simp
    · rw [getD_set_ne _ _ _ hbj]
      simp [hbj]
  · rw [getD_set_ne _ _ _ hai]
    simp [hai]

lemma mGet_replicate (n : Nat) (a : Int) {i j : Nat} (hi : i < n) (hj : j < n) :
    mGet (List.replicate n (List.replicate n a)) i j = a := by
  unfold mGet
  have h1 : (List.replicate n (List.replicate n a)).getD i [] = List.replicate n a := by
    rw [List.getD_eq_getElem _ _ (by simpa using hi)]
    simp
  rw [h1, List.getD_eq_getElem _ _ (by simpa using hj)]
  simp

lemma MDims_replicate (n : Nat) (a : Int) :
    MDims (List.replicate n (List.replicate n a)) n := by
  constructor
  · exact List.length_replicate n _
  · intro row hrow
    rw [List.eq_of_mem_replicate hrow]
    exact List.length_replicate n _

/-- Pointwise description of the diagonal-zeroing fold. -/
lemma mGet_diag_fold (n : Nat) :
    ∀ (l : List Nat) (d : List (List Int)), MDims d n →
      (∀ v ∈ l, v < n) → ∀ i j, i < n → j < n →
      mGet (l.foldl (fun d v => mSet d v v 0) d) i j =
        if i = j ∧ i ∈ l then 0 else mGet d i j := by
  intro l
  induction l with
  | nil => intro d _ _ i j _ _; simp
  | cons v rest ih =>
    intro d hd hl i j hi hj
    have hv : v < n := hl v (List.mem_cons_self v rest)
    rw [List.foldl_cons,
      ih (mSet d v v 0) (hd.mSet v v 0) (fun x hx => hl x (List.mem_cons_of_mem v hx)) i j hi hj,
      mGet_mSet hd 0 hv hi hj]
    by_cases hij : i = j
    · subst hij
      by_cases hmem : i ∈ rest
      · simp [hmem]
      · by_cases hvi : v = i
        · subst hvi; simp
        · simp [hmem, hvi, Ne.symm hvi]
    · rw [if_neg (fun h : i = j ∧ i ∈ rest => hij h.1),
        if_neg (fun h : v = i ∧ v = j => hij (h.1.symm.trans h.2)),
        if_neg (fun h : i = j ∧ i ∈ v :: rest => hij h.1)]

/-- The diagonal stage: every diagonal entry of `fwDiag` is zero. -/
lemma mGet_fwDiag (g : Graph) {i j : Nat} (hi : i < g.num_v) (hj : j < g.num_v) :
    mGet (fwDiag g) i j = if i = j then 0 else i64MAX := by
  unfold fwDiag
  rw [mGet_diag_fold g.num_v _ _ (MDims_replicate _ _)
    (fun v hv => List.mem_range.1 hv) i j hi hj]
  by_cases hij : i = j
  · simp [hij, List.mem_range, hj]
  · simp [hij, mGet_replicate g.num_v i64MAX hi hj]

lemma MDims_fwDiag (g : Graph) : MDims (fwDiag g) g.num_v := by
  unfold fwDiag
  exact foldl_invariant (fun d => MDims d g.num_v) _ _ _ (MDims_replicate _ _)
    (fun d v _ hd => hd.mSet v v 0)

/-- The weight of the last direct edge `i → j` in insertion order, if any. -/
def lastEdgeW (g : Graph) (i j : Nat) : Option Int :=
  (((List.range g.num_e).filter (fun e => g.esrc e = i ∧ g.etgt e = j)).map
    (fun e => g.edge_weights.getD e 0)).getLast?

lemma getD_getLast?_cons {α : Type} (a : α) (l : List α) (d₁ d₂ : α) :
    ((a :: l).getLast?).getD d₁ = ((a :: l).getLast?).getD d₂ := by
  induction l generalizing a with
  | nil => rfl
  | cons b t ih =>
    rw [List.getLast?_cons_cons]
    exact ih b

/-- Pointwise description of the edge-writing fold: the last write wins. -/
lemma mGet_edge_fold (g : Graph) (n : Nat) :
    ∀ (l : List Nat) (d : List (List Int)), MDims d n →
      (∀ e ∈ l, g.esrc e < n ∧ g.etgt e < n) → ∀ i j, i < n → j < n →
      mGet (l.foldl (fun d e => mSet d (g.esrc e) (g.etgt e) (g.edge_weights.getD e 0)) d) i j =
        (((l.filter (fun e => g.esrc e = i ∧ g.etgt e = j)).map
            (fun e => g.edge_weights.getD e 0)).getLast?).getD (mGet d i j) := by
  intro l
  induction l with
  | nil => intro d _ _ i j _ _; simp
  | cons e rest ih =>
    intro d hd hl i j hi hj
    have he : g.esrc e < n ∧ g.etgt e < n := hl e (List.mem_cons_self e rest)
    rw [List.foldl_cons,
      ih (mSet d (g.esrc e) (g.etgt e) (g.edge_weights.getD e 0)) (hd.mSet _ _ _)
        (fun x hx => hl x (List.mem_cons_of_mem e hx)) i j hi hj,
      mGet_mSet hd _ he.1 hi hj]
    by_cases hmatch : g.esrc e = i ∧ g.etgt e = j
    · rw [List.filter_cons_of_pos (by simp [hmatch])]
      cases hrest : (rest.filter (fun e => g.esrc e = i ∧ g.etgt e = j)) with
      | nil => simp [hmatch]
      | cons x xs =>
        simp only [List.map_cons, List.getLast?_cons_cons]
        exact getD_getLast?_cons _ _ _ _
    · rw [List.filter_cons_of_neg (by simp [hmatch])]
      cases hrest : (rest.filter (fun e => g.esrc e = i ∧ g.etgt e = j)) with
      | nil => simp [hmatch]
      | cons x xs => rw [if_neg hmatch]

/-- The initialized matrix, pointwise: the last parallel edge's weight if a
direct edge exists, else zero on the diagonal, else the sentinel. -/
lemma mGet_fwInit (g : Graph) (hwf : g.WF) {i j : Nat}
    (hi : i < g.num_v) (hj : j < g.num_v) :
    mGet (fwInit g) i j = (lastEdgeW g i j).getD (if i = j then 0 else i64MAX) := by
  unfold fwInit lastEdgeW
  rw [mGet_edge_fold g g.num_v _ _ (MDims_fwDiag g)
    (fun e he => g.endpoints_lt hwf (List.mem_range.1 he)) i j hi hj,
    mGet_fwDiag g hi hj]

lemma MDims_fwInit (g : Graph) : MDims (fwInit g) g.num_v := by
  unfold fwInit
  exact foldl_invariant (fun d => MDims d g.num_v) _ _ _ (MDims_fwDiag g)
    (fun d e _ hd => hd.mSet _ _ _)

/-- The sentinel invariant: a non-sentinel entry witnesses reachability. -/
def FwInv (g : Graph) (d : List (List Int)) : Prop :=
  MDims d g.num_v ∧
    ∀ i j, i < g.num_v → j < g.num_v → mGet d i j ≠ i64MAX → Reaches g i j

lemma FwInv_fwInit (g : Graph) (hwf : g.WF) : FwInv g (fwInit g) := by
  refine ⟨MDims_fwInit g, fun i j hi hj hne => ?_⟩
  rw [mGet_fwInit g hwf hi hj] at hne
  cases hlast : lastEdgeW g i j with
  | none =>
    rw [hlast] at hne
    by_cases hij : i = j
    · exact hij ▸ Reaches.refl i
    · simp [hij] at hne
  | some w =>
    unfold lastEdgeW at hlast
    have hmem : w ∈ ((List.range g.num_e).filter
        (fun e => g.esrc e = i ∧ g.etgt e = j)).map (fun e => g.edge_weights.getD e 0) :=
      List.mem_of_getLast?_eq_some hlast
    obtain ⟨e, hef, -⟩ := List.mem_map.1 hmem
    have := List.mem_filter.1 hef
    obtain ⟨hsrc, htgt⟩ := by simpa using this.2
    have hlt : e < g.num_e := List.mem_range.1 this.1
    exact hsrc ▸ htgt ▸ Reaches.of_edge hlt

lemma FwInv_fwInner {g : Graph} {d : List (List Int)} (hd : FwInv g d)
    {k i j : Nat} (hk : k < g.num_v) (hi : i < g.num_v) (hj : j < g.num_v) :
    FwInv g (fwInner d k i j) := by
  unfold fwInner
  by_cases hguard : mGet d i k < i64MAX ∧ mGet d k j < i64MAX
  · rw [if_pos hguard]
    by_cases hupd : mGet d i j > wrapI64 (mGet d i k + mGet d k j)
    · rw [if_pos hupd]
      have hreach : Reaches g i j :=
        (hd.2 i k hi hk (Int.ne_of_lt hguard.1)).trans_right
          (hd.2 k j hk hj (Int.ne_of_lt hguard.2))
      refine ⟨hd.1.mSet _ _ _, fun i' j' hi' hj' hne => ?_⟩
      rw [mGet_mSet hd.1 _ hi hi' hj'] at hne
      by_cases hij : i = i' ∧ j = j'
      · exact hij.1 ▸ hij.2 ▸ hreach
      · rw [if_neg hij] at hne
        exact hd.2 i' j' hi' hj' hne
    · rw [if_neg hupd]; exact hd
  · rw [if_neg hguard]; exact hd

lemma FwInv_floyd_warshall (g : Graph) (hwf : g.WF) :
    FwInv g (floyd_warshall g) := by
  unfold floyd_warshall
  refine foldl_invariant (FwInv g) _ _ _ (FwInv_fwInit g hwf) (fun d k hk hd => ?_)
  unfold fwK
  refine foldl_invariant (FwInv g) _ _ _ hd (fun d i hi hd => ?_)
  refine foldl_invariant (FwInv g) _ _ _ hd (fun d j hj hd => ?_)
  exact FwInv_fwInner hd (List.mem_range.1 hk) (List.mem_range.1 hi) (List.mem_range.1 hj)

/-- Claim C4 (amended): `floyd_warshall` returns an `n × n` matrix
(`n = num_vertices`); the matrix is initialized with `dist[i][i] = 0` for
every `i` and then `dist[u][v]` is set to the direct-edge weight with last
write winning (so a self-loop weight overwrites its diagonal zero); pairs
with no path hold the `i64::MAX` sentinel in the returned matrix; and each
relaxation is performed only when both operands are strictly below the
sentinel. -/
theorem floyd_warshall_characterization (g : Graph) (hwf : g.WF) :
    ((floyd_warshall g).length = g.num_v ∧
      ∀ row ∈ floyd_warshall g, row.length = g.num_v) ∧
    (∀ i, i < g.num_v → mGet (fwDiag g) i i = 0) ∧
    (∀ i j, i < g.num_v → j < g.num_v →
      mGet (fwInit g) i j = (lastEdgeW g i j).getD (if i = j then 0 else i64MAX)) ∧
    (∀ i j, i < g.num_v → j < g.num_v → ¬ Reaches g i j →
      mGet (floyd_warshall g) i j = i64MAX) ∧
    (∀ d k i j, mGet d i k = i64MAX ∨ mGet d k j = i64MAX → fwInner d k i j = d) := by
  have hinv := FwInv_floyd_warshall g hwf
  refine ⟨⟨hinv.1.1, hinv.1.2⟩, ?_, ?_, ?_, ?_⟩
  · intro i hi
    rw [mGet_fwDiag g hi hi]
    simp
  · intro i j hi hj
    exact mGet_fwInit g hwf hi hj
  · intro i j hi hj hnr
    by_contra hne
    exact hnr (hinv.2 i j hi hj hne)
  · intro d k i j hor
    unfold fwInner
    rcases hor with h | h
    · rw [if_neg (by rw [h]; simp)]
    · rw [if_neg (by rw [h]; simp)]

/-- Witness for `floyd_warshall_characterization` at the concrete 8-vertex
test graph. -/
theorem floyd_warshall_characterization_witness :
    gFW.WF ∧
      (((floyd_warshall gFW).length = gFW.num_v ∧
        ∀ row ∈ floyd_warshall gFW, row.length = gFW.num_v) ∧
      (∀ i, i < gFW.num_v → mGet (fwDiag gFW) i i = 0) ∧
      (∀ i j, i < gFW.num_v → j < gFW.num_v →
        mGet (fwInit gFW) i j = (lastEdgeW gFW i j).getD (if i = j then 0 else i64MAX)) ∧
      (∀ i j, i < gFW.num_v → j < gFW.num_v → ¬ Reaches gFW i j →
        mGet (floyd_warshall gFW) i j = i64MAX) ∧
      (∀ d k i j, mGet d i k = i64MAX ∨ mGet d k j = i64MAX → fwInner d k i j = d)) :=
  ⟨by decide, floyd_warshall_characterization gFW (by decide)⟩

/-! ## The DFS stack bound (claim C7) -/

lemma getD_map_range {α : Type} (f : Nat → α) (n u : Nat) (d : α) (hu : u < n) :
    ((List.range n).map f).getD u d = f u := by
  rw [List.getD_eq_getElem _ _ (by simpa using hu)]
  simp

lemma getD_set_true_mono (vis : List Bool) (v x : Nat)
    (h : vis.getD x false = true) : (vis.set v true).getD x false = true := by
  by_cases hvx : v = x
  · subst hvx
    by_cases hlt : v < vis.length
    · rw [getD_set_eq _ _ _ _ hlt]
    · rw [List.set_eq_of_length_le (Nat.le_of_not_lt hlt)]
      exact h
  · rw [getD_set_ne _ _ _ hvx]
    exact h

/-- The traversal invariant behind the stack bound: the visited vector has
one flag per vertex, the stack holds pairwise-distinct visited vertices,
and every cursor entry points at a valid vertex. -/
def DfsInvC (g : Graph) (vis : List Bool) (adj : List (List (Nat × Nat)))
    (stack : List Nat) : Prop :=
  vis.length = g.num_v ∧
    stack.Nodup ∧
    (∀ v ∈ stack, v < g.num_v ∧ vis.getD v false = true) ∧
    (∀ u : Nat, ∀ p ∈ adj.getD u [], p.2 < g.num_v)

def DfsInv (g : Graph) (st : DfsState) : Prop :=
  DfsInvC g st.visited st.adj_iters st.stack

lemma DfsInv_init (g : Graph) (root : Nat) (hwf : g.WF) (hroot : root < g.num_v) :
    DfsInv g (dfs g root) := by
  refine ⟨by simp [dfs], List.nodup_singleton root, ?_, ?_⟩
  · intro v hv
    have hstack : (dfs g root).stack = [root] := rfl
    rw [hstack, List.mem_singleton] at hv
    have hvis : (dfs g root).visited = (List.replicate g.num_v false).set root true := rfl
    rw [hv, hvis]
    exact ⟨hroot, getD_set_eq _ _ _ _ (by simpa using hroot)⟩
  · intro u p hp
    by_cases hu : u < g.num_v
    · rw [show (dfs g root).adj_iters = (List.range g.num_v).map g.adj_list from rfl,
        getD_map_range _ _ _ _ hu] at hp
      obtain ⟨-, -, htgt⟩ := mem_adj_list_iff.1 ((Prod.mk.eta (p := p)) ▸ hp)
      exact htgt ▸ (g.endpoints_lt hwf (mem_adj_list_iff.1 ((Prod.mk.eta (p := p)) ▸ hp)).1).2
    · rw [show (dfs g root).adj_iters = (List.range g.num_v).map g.adj_list from rfl,
        getD_of_length_le _ _ _ (by simpa using Nat.le_of_not_lt hu)] at hp
      simp at hp

lemma dfsNextAux_inv (g : Graph) :
    ∀ (stack : List Nat) (vis : List Bool) (adj : List (List (Nat × Nat)))
      (p : Nat × Nat) (st' : DfsState),
      dfsNextAux vis adj stack = some (p, st') →
      DfsInvC g vis adj stack → DfsInv g st' := by
  intro stack
  induction stack with
  | nil => intro vis adj p st' h; simp [dfsNextAux] at h
  | cons u rest ih =>
    intro vis adj p st' h hinv
    obtain ⟨hlen, hnd, hstk, hadj⟩ := hinv
    unfold dfsNextAux at h
    cases hscan : scanAdj vis (adj.getD u []) with
    | some pl =>
      obtain ⟨⟨e, v⟩, l⟩ := pl
      rw [hscan] at h
      simp only [Option.some.injEq] at h
      obtain ⟨rfl, rfl⟩ := Prod.mk.inj h
      obtain ⟨hvfalse, pre, hpre, -⟩ := scanAdj_some vis _ _ _ _ hscan
      have hvmem : (e, v) ∈ adj.getD u [] := by
        rw [hpre]; exact List.mem_append_right pre (List.mem_cons_self _ _)
      have hvlt : v < g.num_v := hadj u (e, v) hvmem
      have hvnotstack : v ∉ u :: rest := fun hmem => by
        rw [(hstk v hmem).2] at hvfalse
        exact Bool.true_eq_false ▸ hvfalse ▸ rfl
      refine ⟨by simpa using hlen, List.nodup_cons.2 ⟨hvnotstack, hnd⟩, ?_, ?_⟩
      · intro x hx
        rcases List.mem_cons.1 hx with h1 | h1
        · subst h1
          exact ⟨hvlt, getD_set_eq _ _ _ _ (by rw [hlen]; exact hvlt)⟩
        · exact ⟨(hstk x h1).1, getD_set_true_mono _ _ _ (hstk x h1).2⟩
      · intro u' q hq
        by_cases huu : u = u'
        · subst huu
          have hu : u < adj.length :=
            getD_ne_nil_lt adj u (by rw [hpre]; simp)
          rw [getD_set_eq _ _ _ _ hu] at hq
          exact hadj u q (by rw [hpre]; exact List.mem_append_right pre (List.mem_cons_of_mem _ hq))
        · rw [getD_set_ne _ _ _ huu] at hq
          exact hadj u' q hq
    | none =>
      rw [hscan] at h
      refine ih vis (adj.set u []) p st' h ⟨hlen, hnd.of_cons, ?_, ?_⟩
      · intro x hx
        exact hstk x (List.mem_cons_of_mem u hx)
      · intro u' q hq
        by_cases huu : u = u'
        · subst huu
          by_cases hu : u < adj.length
          · rw [getD_set_eq _ _ _ _ hu] at hq
            simp at hq
          · rw [List.set_eq_of_length_le (Nat.le_of_not_lt hu)] at hq
            exact hadj u q hq
        · rw [getD_set_ne _ _ _ huu] at hq
          exact hadj u' q hq

lemma dfsStep_inv (g : Graph) (st : DfsState) (h : DfsInv g st) :
    DfsInv g (dfsStep st) := by
  unfold dfsStep
  cases hn : dfsNext st with
  | none => exact h
  | some pst =>
    obtain ⟨p, st'⟩ := pst
    exact dfsNextAux_inv g st.stack st.visited st.adj_iters p st' hn h

lemma DfsInv.stack_le (g : Graph) (st : DfsState) (h : DfsInv g st) :
    st.stack.length ≤ g.num_v := by
  obtain ⟨-, hnd, hstk, -⟩ := h
  have hsub : st.stack.toFinset ⊆ Finset.range g.num_v := by
    intro x hx
    rw [Finset.mem_range]
    exact (hstk x (List.mem_toFinset.1 hx)).1
  calc st.stack.length = st.stack.toFinset.card :=
        (List.toFinset_card_of_nodup hnd).symm
    _ ≤ (Finset.range g.num_v).card := Finset.card_le_card hsub
    _ = g.num_v := Finset.card_range _

/-- Claim C7: for every well-formed directed graph and root vertex, after
`dfs(root)` and after each subsequent call to `next`, the traversal's stack
never exceeds `num_vertices + 1` entries (in fact it never exceeds
`num_vertices`). -/
theorem dfs_stack_bound (g : Graph) (root : Nat) (hwf : g.WF)
    (hroot : root < g.num_v) (k : Nat) :
    (dfsStateAfter g root k).stack.length ≤ g.num_v + 1 := by
  have hinv : DfsInv g (dfsStateAfter g root k) := by
    induction k with
    | zero => exact DfsInv_init g root hwf hroot
    | succ k ihk =>
      rw [dfsStateAfter, Function.iterate_succ_apply']
      exact dfsStep_inv g _ ihk
  exact Nat.le_succ_of_le (hinv.stack_le g _)

/-- Witness for `dfs_stack_bound` on the four-vertex test graph with root 2,
one step into the traversal. -/
theorem dfs_stack_bound_witness :
    gDfs.WF ∧ 2 < gDfs.num_v ∧
      (dfsStateAfter gDfs 2 1).stack.length ≤ gDfs.num_v + 1 :=
  ⟨by decide, by decide, dfs_stack_bound gDfs 2 (by decide) (by decide) 1⟩

/-! ## Full correctness of the DFS traversal (claim C8) -/

lemma getD_set_true_iff (vis : List Bool) (v x : Nat) (hv : v < vis.length) :
    ((vis.set v true).getD x false = true ↔ (vis.getD x false = true ∨ x = v)) := by
  by_cases hx : x = v
  · rw [hx, getD_set_eq _ _ _ _ hv]
    simp
  · rw [getD_set_ne _ _ _ (fun h => hx h.symm)]
    simp [hx]

lemma adj_list_eq_nil_of_ge {g : Graph} (hwf : g.WF) {u : Nat}
    (hu : g.num_v ≤ u) : g.adj_list u = [] := by
  rw [List.eq_nil_iff_forall_not_mem]
  intro p hp
  obtain ⟨he, hsrc, -⟩ := mem_adj_list_iff.1 ((Prod.mk.eta (p := p)) ▸ hp)
  have := (g.endpoints_lt hwf he).1
  omega

/-- The strong traversal invariant: visited flags sized to the graph, the
root and all stacked vertices visited, every cursor a suffix of its original
adjacency list whose consumed prefix has visited targets, every visited
off-stack vertex fully scanned, and every visited vertex reachable from the
root. -/
def SInvC (g : Graph) (root : Nat) (vis : List Bool)
    (adj : List (List (Nat × Nat))) (stack : List Nat) : Prop :=
  vis.length = g.num_v ∧
    vis.getD root false = true ∧
    (∀ v ∈ stack, vis.getD v false = true) ∧
    (∀ u : Nat, ∃ pre, g.adj_list u = pre ++ adj.getD u [] ∧
        ∀ q ∈ pre, vis.getD q.2 false = true) ∧
    (∀ u : Nat, vis.getD u false = true → u ∉ stack → adj.getD u [] = []) ∧
    (∀ v : Nat, vis.getD v false = true → Reaches g root v)

def SInv (g : Graph) (root : Nat) (st : DfsState) : Prop :=
  SInvC g root st.visited st.adj_iters st.stack

lemma dfs_init_visited_iff (g : Graph) (root : Nat) (hroot : root < g.num_v)
    (x : Nat) : ((dfs g root).visited.getD x false = true ↔ x = root) := by
  have hvis : (dfs g root).visited = (List.replicate g.num_v false).set root true := rfl
  rw [hvis]
  by_cases hx : x = root
  · have hlt : root < (List.replicate g.num_v false).length := by simpa using hroot
    rw [hx, getD_set_eq _ _ _ _ hlt]
    simp [hx]
  · rw [getD_set_ne _ _ _ (fun h => hx h.symm)]
    constructor
    · intro h
      by_cases hlt : x < g.num_v
      · rw [List.getD_eq_getElem _ _ (by simpa using hlt)] at h
        simp at h
      · rw [getD_of_length_le _ _ _ (by simpa using Nat.le_of_not_lt hlt)] at h
        exact absurd h (by simp)
    · intro h
      exact absurd h hx

lemma SInv_init (g : Graph) (root : Nat) (hwf : g.WF) (hroot : root < g.num_v) :
    SInv g root (dfs g root) := by
  have hvisiff := dfs_init_visited_iff g root hroot
  refine ⟨by simp [dfs], (hvisiff root).2 rfl, ?_, ?_, ?_, ?_⟩
  · intro v hv
    have hstack : (dfs g root).stack = [root] := rfl
    rw [hstack, List.mem_singleton] at hv
    exact (hvisiff v).2 hv
  · intro u
    have hadj : (dfs g root).adj_iters = (List.range g.num_v).map g.adj_list := rfl
    by_cases hu : u < g.num_v
    · refine ⟨[], ?_, by simp⟩
      rw [hadj, getD_map_range _ _ _ _ hu]
      simp
    · refine ⟨[], ?_, by simp⟩
      rw [hadj, getD_of_length_le _ _ _ (by simpa using Nat.le_of_not_lt hu),
        adj_list_eq_nil_of_ge hwf (Nat.le_of_not_lt hu)]
      simp
  · intro u hu hustack
    exact absurd (by
      have hstack : (dfs g root).stack = [root] := rfl
      rw [hstack, List.mem_singleton]
      exact (hvisiff u).1 hu) hustack
  · intro v hv
    rw [(hvisiff v).1 hv]
    exact Reaches.refl root

lemma dfsNextAux_sinv (g : Graph) (root : Nat) (hwf : g.WF) :
    ∀ (stack : List Nat) (vis : List Bool) (adj : List (List (Nat × Nat)))
      (p : Nat × Nat) (st' : DfsState),
      dfsNextAux vis adj stack = some (p, st') →
      SInvC g root vis adj stack →
      SInvC g root st'.visited st'.adj_iters st'.stack ∧
        vis.getD p.2 false = false ∧
        (∀ x, (st'.visited.getD x false = true ↔ (vis.getD x false = true ∨ x = p.2))) := by
  intro stack
  induction stack with
  | nil => intro vis adj p st' h; simp [dfsNextAux] at h
  | cons u rest ih =>
    intro vis adj p st' h hinv
    obtain ⟨hlen, hroot', hstk, hsfx, hclosed, hreach⟩ := hinv
    unfold dfsNextAux at h
    cases hscan : scanAdj vis (adj.getD u []) with
    | some pl =>
      obtain ⟨⟨e, v⟩, l⟩ := pl
      rw [hscan] at h
      simp only [Option.some.injEq] at h
      obtain ⟨hev, rfl⟩ := Prod.mk.inj h
      subst hev
      obtain ⟨hvfresh, spre, hspre, hsprevis⟩ := scanAdj_some vis _ _ _ _ hscan
      obtain ⟨pre, hpre, hprevis⟩ := hsfx u
      have hvmem_adj : (e, v) ∈ g.adj_list u := by
        rw [hpre, hspre]
        exact List.mem_append_right pre
          (List.mem_append_right spre (List.mem_cons_self _ _))
      have hvlt : v < g.num_v := by
        obtain ⟨he', -, htgt⟩ := mem_adj_list_iff.1 hvmem_adj
        exact htgt ▸ (g.endpoints_lt hwf he').2
      have hvlen : v < vis.length := by rw [hlen]; exact hvlt
      have hadjne : adj.getD u [] ≠ [] := by rw [hspre]; simp
      have hult : u < adj.length := getD_ne_nil_lt adj u hadjne
      have hiff := fun x => getD_set_true_iff vis v x hvlen
      have humem : vis.getD u false = true := hstk u (List.mem_cons_self u rest)
      refine ⟨⟨by simpa using hlen, getD_set_true_mono _ _ _ hroot', ?_, ?_, ?_, ?_⟩,
        hvfresh, fun x => hiff x⟩
      · intro x hx
        rcases List.mem_cons.1 hx with h1 | h1
        · rw [h1]
          exact getD_set_eq _ _ _ _ hvlen
        · exact getD_set_true_mono _ _ _ (hstk x h1)
      · intro u'
        by_cases huu : u = u'
        · subst huu
          refine ⟨pre ++ spre ++ [(e, v)], ?_, ?_⟩
          · rw [getD_set_eq _ _ _ _ hult, hpre, hspre]
            simp
          · intro q hq
            rcases List.mem_append.1 hq with h1 | h1
            · rcases List.mem_append.1 h1 with h2 | h2
              · exact getD_set_true_mono _ _ _ (hprevis q h2)
              · exact getD_set_true_mono _ _ _ (hsprevis q h2)
            · rw [List.mem_singleton] at h1
              rw [h1]
              exact getD_set_eq _ _ _ _ hvlen
        · obtain ⟨pre', hpre', hprevis'⟩ := hsfx u'
          refine ⟨pre', ?_, fun q hq => getD_set_true_mono _ _ _ (hprevis' q hq)⟩
          rw [getD_set_ne _ _ _ huu]
          exact hpre'
      · intro x hx hxstack
        have hxv : x ≠ v := fun hxv => hxstack (by
          rw [hxv]
          exact List.mem_cons_self v _)
        have hxu : x ≠ u := fun hxu => hxstack (by
          rw [hxu]
          exact List.mem_cons_of_mem v (List.mem_cons_self u rest))
        have hxold : vis.getD x false = true := by
          rcases (hiff x).1 hx with h1 | h1
          · exact h1
          · exact absurd h1 hxv
        have hxnotstack : x ∉ u :: rest := fun hmem => by
          rcases List.mem_cons.1 hmem with h1 | h1
          · exact hxu h1
          · exact hxstack (List.mem_cons_of_mem v (List.mem_cons_of_mem u h1))
        rw [getD_set_ne _ _ _ (fun h => hxu h.symm)]
        exact hclosed x hxold hxnotstack
      · intro x hx
        rcases (hiff x).1 hx with h1 | h1
        · exact hreach x h1
        · rw [h1]
          exact .step (hreach u humem) hvmem_adj
    | none =>
      rw [hscan] at h
      have hsprevis := scanAdj_none vis _ hscan
      refine ih vis (adj.set u []) p st' h
        ⟨hlen, hroot', fun x hx => hstk x (List.mem_cons_of_mem u hx), ?_, ?_, hreach⟩
      · intro u'
        by_cases huu : u = u'
        · subst huu
          obtain ⟨pre, hpre, hprevis⟩ := hsfx u
          refine ⟨g.adj_list u, ?_, ?_⟩
          · by_cases hult : u < adj.length
            · rw [getD_set_eq _ _ _ _ hult]
              simp
            · rw [List.set_eq_of_length_le (Nat.le_of_not_lt hult),
                getD_of_length_le _ _ _ (Nat.le_of_not_lt hult)]
              simp
          · intro q hq
            rw [hpre] at hq
            rcases List.mem_append.1 hq with h1 | h1
            · exact hprevis q h1
            · exact hsprevis q h1
        · obtain ⟨pre', hpre', hprevis'⟩ := hsfx u'
          refine ⟨pre', ?_, hprevis'⟩
          rw [getD_set_ne _ _ _ huu]
          exact hpre'
      · intro x hx hxrest
        by_cases hxu : x = u
        · rw [hxu]
          by_cases hult : u < adj.length
          · exact getD_set_eq _ _ _ _ hult
          · rw [List.set_eq_of_length_le (Nat.le_of_not_lt hult)]
            exact getD_of_length_le _ _ _ (Nat.le_of_not_lt hult)
        · rw [getD_set_ne _ _ _ (fun hh => hxu hh.symm)]
          exact hclosed x hx (fun hmem => by
            rcases List.mem_cons.1 hmem with h1 | h1
            · exact hxu h1
            · exact hxrest h1)

lemma dfsRunFuel_spec (g : Graph) (root : Nat) (hwf : g.WF) :
    ∀ (fuel : Nat) (st : DfsState), SInv g root st →
      SInv g root (dfsRunFuel fuel st).2 ∧
        (∀ x, ((dfsRunFuel fuel st).2.visited.getD x false = true ↔
          (st.visited.getD x false = true ∨
            x ∈ (dfsRunFuel fuel st).1.map Prod.snd))) ∧
        ((dfsRunFuel fuel st).1.map Prod.snd).Nodup ∧
        (∀ p ∈ (dfsRunFuel fuel st).1, st.visited.getD p.2 false = false) := by
  intro fuel
  induction fuel with
  | zero =>
    intro st hst
    exact ⟨hst, by simp [dfsRunFuel], by simp [dfsRunFuel], by simp [dfsRunFuel]⟩
  | succ fuel ihf =>
    intro st hst
    cases hn : dfsNext st with
    | none =>
      refine ⟨by simp only [dfsRunFuel, hn]; exact hst, ?_, ?_, ?_⟩ <;>
        simp [dfsRunFuel, hn]
    | some pst =>
      obtain ⟨⟨e, v⟩, st'⟩ := pst
      have hstep := dfsNextAux_sinv g root hwf st.stack st.visited st.adj_iters
        (e, v) st' hn hst
      obtain ⟨hst', hfresh, hiff⟩ := hstep
      obtain ⟨hfin, hiff', hnd, hnew⟩ := ihf st' hst'
      simp only [dfsRunFuel, hn]
      refine ⟨hfin, ?_, ?_, ?_⟩
      · intro x
        rw [hiff' x, hiff x]
        simp only [List.map_cons, List.mem_cons]
        tauto
      · simp only [List.map_cons]
        refine List.nodup_cons.2 ⟨?_, hnd⟩
        intro hvmem
        obtain ⟨p, hp, hpv⟩ := List.mem_map.1 hvmem
        have hnotvis := hnew p hp
        rw [hpv] at hnotvis
        have hvis : st'.visited.getD v false = true := (hiff v).2 (Or.inr rfl)
        rw [hnotvis] at hvis
        exact absurd hvis (by simp)
      · intro p hp
        rcases List.mem_cons.1 hp with h1 | h1
        · rw [h1]
          exact hfresh
        · have hnotvis' := hnew p h1
          by_cases hvisold : st.visited.getD p.2 false = true
          · have : st'.visited.getD p.2 false = true := (hiff p.2).2 (Or.inl hvisold)
            rw [hnotvis'] at this
            exact absurd this (by simp)
          · exact Bool.not_eq_true _ ▸ hvisold

lemma dfsNextAux_none_targets (vis : List Bool) :
    ∀ (stack : List Nat) (adj : List (List (Nat × Nat))),
      dfsNextAux vis adj stack = none →
      ∀ u ∈ stack, ∀ q ∈ adj.getD u [], vis.getD q.2 false = true := by
  intro stack
  induction stack with
  | nil => intro adj _ u hu; simp at hu
  | cons u rest ih =>
    intro adj h x hx q hq
    unfold dfsNextAux at h
    cases hscan : scanAdj vis (adj.getD u []) with
    | some pl =>
      obtain ⟨⟨e₀, v₀⟩, l⟩ := pl
      rw [hscan] at h
      exact absurd h (by simp)
    | none =>
      rw [hscan] at h
      by_cases hxu : x = u
      · subst hxu
        exact scanAdj_none vis _ hscan q hq
      · rcases List.mem_cons.1 hx with h1 | h1
        · exact absurd h1 hxu
        · refine ih (adj.set u []) h x h1 q ?_
          rw [getD_set_ne _ _ _ (fun hh => hxu hh.symm)]
          exact hq

/-- At a drained iterator state the visited set is closed under adjacency. -/
lemma sinv_none_closed (g : Graph) (root : Nat) (st : DfsState)
    (hst : SInv g root st) (hnone : dfsNext st = none) :
    ∀ u : Nat, st.visited.getD u false = true →
      ∀ q ∈ g.adj_list u, st.visited.getD q.2 false = true := by
  intro u hu q hq
  obtain ⟨-, -, -, hsfx, hclosed, -⟩ := hst
  obtain ⟨pre, hpre, hprevis⟩ := hsfx u
  rw [hpre] at hq
  rcases List.mem_append.1 hq with h1 | h1
  · exact hprevis q h1
  · by_cases hustack : u ∈ st.stack
    · exact dfsNextAux_none_targets st.visited st.stack st.adj_iters hnone u hustack q h1
    · rw [hclosed u hu hustack] at h1
      simp at h1

lemma reaches_closed {g : Graph} (P : Nat → Prop)
    (hcl : ∀ u, P u → ∀ q ∈ g.adj_list u, P q.2) :
    ∀ {a v : Nat}, Reaches g a v → P a → P v := by
  intro a v hr
  induction hr with
  | refl => exact fun h => h
  | step h1 hm ih => exact fun h => hcl _ (ih h) _ hm

lemma reaches_visited (g : Graph) (root : Nat) (st : DfsState)
    (hst : SInv g root st) (hnone : dfsNext st = none) :
    ∀ v : Nat, Reaches g root v → st.visited.getD v false = true := by
  intro v hr
  exact reaches_closed (fun u => st.visited.getD u false = true)
    (sinv_none_closed g root st hst hnone) hr hst.2.1

/-- Claim C8: fully consuming `dfs(root)` emits, together with the root,
exactly the vertices reachable from the root; each non-root reachable
vertex is emitted exactly once (the emitted vertices are pairwise distinct),
and the root itself is never emitted. -/
theorem dfs_traversal_complete (g : Graph) (root : Nat) (hwf : g.WF)
    (hroot : root < g.num_v) :
    root ∉ (dfsTraversal g root).map Prod.snd ∧
      ((dfsTraversal g root).map Prod.snd).Nodup ∧
      (∀ v : Nat, (v = root ∨ v ∈ (dfsTraversal g root).map Prod.snd) ↔
        Reaches g root v) := by
  have hinit := SInv_init g root hwf hroot
  have hspec := dfsRunFuel_spec g root hwf (dfsMeasure (dfs g root) + 1) (dfs g root) hinit
  obtain ⟨hfin, hiff, hnd, hnew⟩ := hspec
  have hdrained := dfsRunFuel_drained (dfsMeasure (dfs g root) + 1) (dfs g root)
    (Nat.lt_succ_self _)
  have hvisiff := dfs_init_visited_iff g root hroot
  refine ⟨?_, hnd, ?_⟩
  · intro hmem
    obtain ⟨p, hp, hpr⟩ := List.mem_map.1 hmem
    have := hnew p hp
    rw [hpr] at this
    rw [(hvisiff root).2 rfl] at this
    exact absurd this (by simp)
  · intro v
    constructor
    · intro hv
      rcases hv with h1 | h1
      · rw [h1]
        exact Reaches.refl root
      · have hvis : (dfsRunFuel (dfsMeasure (dfs g root) + 1) (dfs g root)).2.visited.getD
            v false = true := (hiff v).2 (Or.inr h1)
        exact hfin.2.2.2.2.2 v hvis
    · intro hr
      have hvis := reaches_visited g root _ hfin hdrained v hr
      rcases (hiff v).1 hvis with h1 | h1
      · exact Or.inl ((hvisiff v).1 h1)
      · exact Or.inr h1

/-- Witness for `dfs_traversal_complete` on the four-vertex test graph with
root 2. -/
theorem dfs_traversal_complete_witness :
    gDfs.WF ∧ 2 < gDfs.num_v ∧
      (2 ∉ (dfsTraversal gDfs 2).map Prod.snd ∧
        ((dfsTraversal gDfs 2).map Prod.snd).Nodup ∧
        (∀ v : Nat, (v = 2 ∨ v ∈ (dfsTraversal gDfs 2).map Prod.snd) ↔
          Reaches gDfs 2 v)) :=
  ⟨by decide, by decide, dfs_traversal_complete gDfs 2 (by decide) (by decide)⟩

/-! ## Correctness of the Euler path (claim C9)

The proof follows the classical analysis of the postorder Hierholzer
recursion: pushes build the path back-to-front, each call consumes a set of
edges forming a walk from its argument vertex to the current dangling end,
and degree balance (which an Eulerian path forces) guarantees the walk
structure; connectivity along the assumed Eulerian path guarantees every
edge is consumed. -/

/-- The walk predicate: `isWalkFromB g u t w` holds when the edge indices
`w`, taken in order, form a walk from `u` to `t` (sources and targets
chain). -/
def isWalkFromB (g : Graph) : Nat → Nat → List Nat → Bool
  | u, t, [] => u == t
  | u, t, e :: rest => (g.esrc e == u) && isWalkFromB g (g.etgt e) t rest

/-- An Eulerian path from `start`: an ordering of all edge indices that
forms a walk starting at `start`. -/
def EulerSpec (g : Graph) (start : Nat) (w : List Nat) : Prop :=
  w.Perm (List.range g.num_e) ∧ ∃ t, isWalkFromB g start t w = true

/-- Faithfulness of a cursor array to the graph: each entry of slot `x` is
`(e, target of e)` for an edge `e` with source `x`. -/
def AdjRel (g : Graph) (adj : List (List (Nat × Nat))) : Prop :=
  ∀ x : Nat, ∀ q ∈ adj.getD x [], q.1 < g.num_e ∧ g.esrc q.1 = x ∧ g.etgt q.1 = q.2

/-- Remaining out-degree of `x` in a cursor array. -/
def outDeg (adj : List (List (Nat × Nat))) (x : Nat) : Nat :=
  (adj.getD x []).length

/-- Remaining in-degree of `x` in a cursor array. -/
def tgtCount (adj : List (List (Nat × Nat))) (x : Nat) : Nat :=
  (adj.flatten.map Prod.snd).count x

/-- Signed degree balance of `x`. -/
def balInt (adj : List (List (Nat × Nat))) (x : Nat) : Int :=
  (outDeg adj x : Int) - (tgtCount adj x : Int)

/-- Quasi-balance with source `s` and sink `t`: every vertex is balanced
except one surplus out-edge at `s` and one surplus in-edge at `t`. -/
def quasiBal (adj : List (List (Nat × Nat))) (s t : Nat) : Prop :=
  ∀ x, balInt adj x = (if x = s then 1 else 0) - (if x = t then 1 else 0)

/-- The multiset of remaining edge indices of a cursor array. -/
def idxM (adj : List (List (Nat × Nat))) : Multiset Nat :=
  ((adj.flatten.map Prod.fst : List Nat) : Multiset Nat)

lemma adj_head_decomp (adj : List (List (Nat × Nat))) (u : Nat)
    (e v : Nat) (rest : List (Nat × Nat)) (h : adj.getD u [] = (e, v) :: rest) :
    adj.flatten =
        (adj.take u).flatten ++ ((e, v) :: rest) ++ (adj.drop (u + 1)).flatten ∧
      (adj.set u rest).flatten =
        (adj.take u).flatten ++ rest ++ (adj.drop (u + 1)).flatten := by
  have hu : u < adj.length := getD_ne_nil_lt adj u (by rw [h]; simp)
  have hget : adj.getD u [] = adj[u] := List.getD_eq_getElem adj [] hu
  constructor
  · conv_lhs => rw [← List.take_append_drop u adj]
    rw [List.drop_eq_getElem_cons hu, ← hget, h]
    simp
  · rw [List.set_eq_take_cons_drop rest hu]
    simp

lemma euler_recurse_nil (fuel u : Nat) (adj : List (List (Nat × Nat)))
    (acc : List Nat) (h : adj.getD u [] = []) :
    euler_recurse (fuel + 1) u adj acc = some (adj, acc) := by
  unfold euler_recurse
  rw [h]

lemma euler_recurse_cons_none (fuel u e v : Nat) (rest : List (Nat × Nat))
    (adj : List (List (Nat × Nat))) (acc : List Nat)
    (h : adj.getD u [] = (e, v) :: rest)
    (hsub : euler_recurse fuel v (adj.set u rest) acc = none) :
    euler_recurse (fuel + 1) u adj acc = none := by
  unfold euler_recurse
  rw [h]
  simp only [hsub]

lemma euler_recurse_cons_some (fuel u e v : Nat) (rest : List (Nat × Nat))
    (adj adj₂ : List (List (Nat × Nat))) (acc acc₂ : List Nat)
    (h : adj.getD u [] = (e, v) :: rest)
    (hsub : euler_recurse fuel v (adj.set u rest) acc = some (adj₂, acc₂)) :
    euler_recurse (fuel + 1) u adj acc = euler_recurse fuel u adj₂ (acc₂ ++ [e]) := by
  unfold euler_recurse
  rw [h]
  simp only [hsub]
  rw [← euler_recurse.eq_def]

lemma euler_recurse_flatten_suffix :
    ∀ (fuel u : Nat) (adj : List (List (Nat × Nat))) (acc : List Nat)
      (adj' : List (List (Nat × Nat))) (acc' : List Nat),
      euler_recurse fuel u adj acc = some (adj', acc') →
      adj'.length = adj.length ∧
        (∀ x, ∃ pre, adj.getD x [] = pre ++ adj'.getD x []) ∧
        (∃ P, acc' = acc ++ P) := by
  intro fuel
  induction fuel with
  | zero => intro u adj acc adj' acc' h; simp [euler_recurse] at h
  | succ fuel ih =>
    intro u adj acc adj' acc' h
    cases hslot : adj.getD u [] with
    | nil =>
      rw [euler_recurse_nil fuel u adj acc hslot] at h
      simp only [Option.some.injEq] at h
      obtain ⟨rfl, rfl⟩ := Prod.mk.inj h
      exact ⟨rfl, fun x => ⟨[], by simp⟩, ⟨[], by simp⟩⟩
    | cons q rest =>
      obtain ⟨e, v⟩ := q
      cases hsub : euler_recurse fuel v (adj.set u rest) acc with
      | none =>
        rw [euler_recurse_cons_none fuel u e v rest adj acc hslot hsub] at h
        exact absurd h (by simp)
      | some pr =>
        obtain ⟨adj₂, acc₂⟩ := pr
        rw [euler_recurse_cons_some fuel u e v rest adj adj₂ acc acc₂ hslot hsub] at h
        have hu : u < adj.length := getD_ne_nil_lt adj u (by rw [hslot]; simp)
        obtain ⟨hlen₂, hsfx₂, P₁, hP₁⟩ := ih v (adj.set u rest) acc adj₂ acc₂ hsub
        obtain ⟨hlen₃, hsfx₃, P₂, hP₂⟩ := ih u adj₂ (acc₂ ++ [e]) adj' acc' h
        refine ⟨by rw [hlen₃, hlen₂, List.length_set], ?_, ?_⟩
        · intro x
          obtain ⟨p₂, hp₂⟩ := hsfx₂ x
          obtain ⟨p₃, hp₃⟩ := hsfx₃ x
          by_cases hxu : x = u
          · refine ⟨(e, v) :: p₂ ++ p₃, ?_⟩
            rw [hxu] at hp₂ hp₃
            rw [getD_set_eq _ _ _ _ hu] at hp₂
            rw [hxu, hslot, hp₂, hp₃]
            simp
          · refine ⟨p₂ ++ p₃, ?_⟩
            rw [getD_set_ne _ _ _ (fun hh => hxu hh.symm)] at hp₂
            rw [hp₂, hp₃]
            simp
        · exact ⟨P₁ ++ [e] ++ P₂, by rw [hP₂, hP₁]; simp⟩

lemma euler_recurse_sumLens :
    ∀ (fuel u : Nat) (adj : List (List (Nat × Nat))) (acc : List Nat)
      (adj' : List (List (Nat × Nat))) (acc' : List Nat),
      euler_recurse fuel u adj acc = some (adj', acc') →
      sumLens adj' ≤ sumLens adj := by
  intro fuel
  induction fuel with
  | zero => intro u adj acc adj' acc' h; simp [euler_recurse] at h
  | succ fuel ih =>
    intro u adj acc adj' acc' h
    cases hslot : adj.getD u [] with
    | nil =>
      rw [euler_recurse_nil fuel u adj acc hslot] at h
      simp only [Option.some.injEq] at h
      obtain ⟨rfl, -⟩ := Prod.mk.inj h
      exact Nat.le_refl _
    | cons q rest =>
      obtain ⟨e, v⟩ := q
      cases hsub : euler_recurse fuel v (adj.set u rest) acc with
      | none =>
        rw [euler_recurse_cons_none fuel u e v rest adj acc hslot hsub] at h
        exact absurd h (by simp)
      | some pr =>
        obtain ⟨adj₂, acc₂⟩ := pr
        rw [euler_recurse_cons_some fuel u e v rest adj adj₂ acc acc₂ hslot hsub] at h
        have hu : u < adj.length := getD_ne_nil_lt adj u (by rw [hslot]; simp)
        have h1 := ih v (adj.set u rest) acc adj₂ acc₂ hsub
        have h2 := ih u adj₂ (acc₂ ++ [e]) adj' acc' h
        have hset := sumLens_set adj u rest hu
        rw [hslot] at hset
        simp only [List.length_cons] at hset
        omega

lemma euler_recurse_isSome :
    ∀ (fuel : Nat) (adj : List (List (Nat × Nat))), sumLens adj < fuel →
      ∀ (u : Nat) (acc : List Nat), (euler_recurse fuel u adj acc).isSome := by
  intro fuel
  induction fuel with
  | zero => intro adj h; omega
  | succ fuel ih =>
    intro adj h u acc
    cases hslot : adj.getD u [] with
    | nil => rw [euler_recurse_nil fuel u adj acc hslot]; simp
    | cons q rest =>
      obtain ⟨e, v⟩ := q
      have hu : u < adj.length := getD_ne_nil_lt adj u (by rw [hslot]; simp)
      have hset := sumLens_set adj u rest hu
      rw [hslot] at hset
      simp only [List.length_cons] at hset
      have hlt₁ : sumLens (adj.set u rest) < fuel := by omega
      cases hsub : euler_recurse fuel v (adj.set u rest) acc with
      | none =>
        have := ih (adj.set u rest) hlt₁ v acc
        rw [hsub] at this
        exact absurd this (by simp)
      | some pr =>
        obtain ⟨adj₂, acc₂⟩ := pr
        rw [euler_recurse_cons_some fuel u e v rest adj adj₂ acc acc₂ hslot hsub]
        have h2 := euler_recurse_sumLens fuel v (adj.set u rest) acc adj₂ acc₂ hsub
        have hlt₂ : sumLens adj₂ < fuel := by omega
        exact ih adj₂ hlt₂ u (acc₂ ++ [e])

lemma outDeg_set_head (adj : List (List (Nat × Nat))) (u e v : Nat)
    (rest : List (Nat × Nat)) (h : adj.getD u [] = (e, v) :: rest) :
    ∀ x, outDeg adj x = outDeg (adj.set u rest) x + (if x = u then 1 else 0) := by
  intro x
  have hu : u < adj.length := getD_ne_nil_lt adj u (by rw [h]; simp)
  unfold outDeg
  by_cases hxu : x = u
  · rw [hxu, getD_set_eq _ _ _ _ hu, h]
    simp
  · rw [getD_set_ne _ _ _ (fun hh => hxu hh.symm), if_neg hxu]
    simp

lemma tgtCount_set_head (adj : List (List (Nat × Nat))) (u e v : Nat)
    (rest : List (Nat × Nat)) (h : adj.getD u [] = (e, v) :: rest) :
    ∀ x, tgtCount adj x = tgtCount (adj.set u rest) x + (if v = x then 1 else 0) := by
  intro x
  obtain ⟨hD1, hD2⟩ := adj_head_decomp adj u e v rest h
  unfold tgtCount
  rw [hD1, hD2]
  simp only [List.map_append, List.count_append, List.map_cons, List.count_cons]
  by_cases hvx : v = x
  · simp [hvx]
    omega
  · simp [hvx]

lemma idxM_set_head (adj : List (List (Nat × Nat))) (u e v : Nat)
    (rest : List (Nat × Nat)) (h : adj.getD u [] = (e, v) :: rest) :
    idxM adj = e ::ₘ idxM (adj.set u rest) := by
  obtain ⟨hD1, hD2⟩ := adj_head_decomp adj u e v rest h
  unfold idxM
  rw [hD1, hD2]
  simp only [List.map_append, List.map_cons]
  rw [Multiset.cons_coe, Multiset.coe_eq_coe]
  simp only [List.append_assoc, List.cons_append]
  exact List.perm_middle

lemma quasiBal_set_head (adj : List (List (Nat × Nat))) (u t e v : Nat)
    (rest : List (Nat × Nat)) (h : adj.getD u [] = (e, v) :: rest)
    (hq : quasiBal adj u t) : quasiBal (adj.set u rest) v t := by
  intro x
  have hout := outDeg_set_head adj u e v rest h x
  have htgt := tgtCount_set_head adj u e v rest h x
  have hq' := hq x
  unfold balInt at hq' ⊢
  split_ifs at hout htgt hq' ⊢ <;> omega

lemma quasiBal_stuck (adj : List (List (Nat × Nat))) (u t : Nat)
    (hq : quasiBal adj u t) (h : adj.getD u [] = []) : u = t := by
  by_cases hut : u = t
  · exact hut
  · exfalso
    have hq' := hq u
    unfold balInt outDeg at hq'
    rw [h, if_pos rfl, if_neg hut] at hq'
    simp only [List.length_nil, Nat.cast_zero] at hq'
    omega

lemma quasiBal_self_of_balanced (adj : List (List (Nat × Nat)))
    (hb : ∀ x, balInt adj x = 0) (u : Nat) : quasiBal adj u u := by
  intro x
  rw [hb x]
  by_cases hxu : x = u <;> simp [hxu]

lemma balanced_of_quasiBal_self (adj : List (List (Nat × Nat))) (t : Nat)
    (hq : quasiBal adj t t) : ∀ x, balInt adj x = 0 := by
  intro x
  have := hq x
  split_ifs at this <;> omega

lemma AdjRel.of_suffixwise {g : Graph} {adj adj' : List (List (Nat × Nat))}
    (h : AdjRel g adj) (hs : ∀ x, ∃ pre, adj.getD x [] = pre ++ adj'.getD x []) :
    AdjRel g adj' := by
  intro x q hq
  obtain ⟨pre, hpre⟩ := hs x
  exact h x q (by rw [hpre]; exact List.mem_append_right pre hq)

lemma set_head_suffixwise (adj : List (List (Nat × Nat))) (u e v : Nat)
    (rest : List (Nat × Nat)) (h : adj.getD u [] = (e, v) :: rest) :
    ∀ x, ∃ pre, adj.getD x [] = pre ++ (adj.set u rest).getD x [] := by
  intro x
  have hu : u < adj.length := getD_ne_nil_lt adj u (by rw [h]; simp)
  by_cases hxu : x = u
  · rw [hxu, getD_set_eq _ _ _ _ hu, h]
    exact ⟨[(e, v)], rfl⟩
  · rw [getD_set_ne _ _ _ (fun hh => hxu hh.symm)]
    exact ⟨[], rfl⟩

lemma isWalkFromB_nil (g : Graph) (u t : Nat) :
    isWalkFromB g u t [] = (u == t) := rfl

lemma isWalkFromB_cons (g : Graph) (u t e : Nat) (w : List Nat) :
    isWalkFromB g u t (e :: w) =
      ((g.esrc e == u) && isWalkFromB g (g.etgt e) t w) := rfl

lemma isWalkFromB_append (g : Graph) :
    ∀ (w₁ w₂ : List Nat) (u m t : Nat),
      isWalkFromB g u m w₁ = true → isWalkFromB g m t w₂ = true →
      isWalkFromB g u t (w₁ ++ w₂) = true := by
  intro w₁
  induction w₁ with
  | nil =>
    intro w₂ u m t h1 h2
    rw [isWalkFromB_nil] at h1
    have hum : u = m := by simpa using h1
    rw [List.nil_append, hum]
    exact h2
  | cons e w ih =>
    intro w₂ u m t h1 h2
    rw [isWalkFromB_cons, Bool.and_eq_true] at h1
    rw [List.cons_append, isWalkFromB_cons, Bool.and_eq_true]
    exact ⟨h1.1, ih w₂ _ m t h1.2 h2⟩

/-- The heart of the Euler-path proof: on a quasi-balanced cursor array the
recursion's pushes, read in reverse, form a walk from the argument vertex to
the sink, the final array is fully balanced with the argument's slot
drained, the pushed indices account exactly for the consumed entries, and
each pushed edge's target is drained in the final array. -/
lemma euler_recurse_spec (g : Graph) :
    ∀ (fuel u t : Nat) (adj : List (List (Nat × Nat))) (acc : List Nat)
      (adj' : List (List (Nat × Nat))) (acc' : List Nat),
      euler_recurse fuel u adj acc = some (adj', acc') →
      AdjRel g adj → quasiBal adj u t →
      ∃ P, acc' = acc ++ P ∧
        isWalkFromB g u t P.reverse = true ∧
        (∀ x, balInt adj' x = 0) ∧
        adj'.getD u [] = [] ∧
        ((P : Multiset Nat) + idxM adj' = idxM adj) ∧
        (∀ e' ∈ P, adj'.getD (g.etgt e') [] = []) := by
  intro fuel
  induction fuel with
  | zero => intro u t adj acc adj' acc' h; simp [euler_recurse] at h
  | succ fuel ih =>
    intro u t adj acc adj' acc' h hrel hq
    cases hslot : adj.getD u [] with
    | nil =>
      rw [euler_recurse_nil fuel u adj acc hslot] at h
      simp only [Option.some.injEq] at h
      obtain ⟨rfl, rfl⟩ := Prod.mk.inj h
      have hut : u = t := quasiBal_stuck adj u t hq hslot
      refine ⟨[], by simp, ?_, ?_, hslot, by simp, by simp⟩
      · rw [List.reverse_nil, isWalkFromB_nil]
        simp [hut]
      · exact balanced_of_quasiBal_self adj t (by rw [hut] at hq; exact hq)
    | cons q rest =>
      obtain ⟨e, v⟩ := q
      cases hsub : euler_recurse fuel v (adj.set u rest) acc with
      | none =>
        rw [euler_recurse_cons_none fuel u e v rest adj acc hslot hsub] at h
        exact absurd h (by simp)
      | some pr =>
        obtain ⟨adj₂, acc₂⟩ := pr
        rw [euler_recurse_cons_some fuel u e v rest adj adj₂ acc acc₂ hslot hsub] at h
        have hhead : (e, v) ∈ adj.getD u [] := by
          rw [hslot]
          exact List.mem_cons_self _ _
        obtain ⟨helt, hesrc, hetgt⟩ := hrel u (e, v) hhead
        have hrel₁ : AdjRel g (adj.set u rest) :=
          hrel.of_suffixwise (set_head_suffixwise adj u e v rest hslot)
        have hq₁ : quasiBal (adj.set u rest) v t :=
          quasiBal_set_head adj u t e v rest hslot hq
        obtain ⟨P₁, hP₁, hw₁, hbal₂, hdrain₂v, hidx₁, hdrain₁⟩ :=
          ih v t (adj.set u rest) acc adj₂ acc₂ hsub hrel₁ hq₁
        have hrel₂ : AdjRel g adj₂ :=
          hrel₁.of_suffixwise
            (euler_recurse_flatten_suffix fuel v (adj.set u rest) acc adj₂ acc₂ hsub).2.1
        have hq₂ : quasiBal adj₂ u u := quasiBal_self_of_balanced adj₂ hbal₂ u
        obtain ⟨P₂, hP₂, hw₂, hbal', hdrainu, hidx₂, hdrain₂⟩ :=
          ih u u adj₂ (acc₂ ++ [e]) adj' acc' h hrel₂ hq₂
        have hsfx₃ :=
          euler_recurse_flatten_suffix fuel u adj₂ (acc₂ ++ [e]) adj' acc' h
        refine ⟨P₁ ++ e :: P₂, ?_, ?_, hbal', hdrainu, ?_, ?_⟩
        · rw [hP₂, hP₁]
          simp
        · rw [List.reverse_append, List.reverse_cons, List.append_assoc]
          have hwalk_e : isWalkFromB g u t ([e] ++ P₁.reverse) = true := by
            rw [List.singleton_append, isWalkFromB_cons, Bool.and_eq_true]
            refine ⟨by simp [hesrc], ?_⟩
            rw [hetgt]
            exact hw₁
          exact isWalkFromB_append g P₂.reverse ([e] ++ P₁.reverse) u u t hw₂ hwalk_e
        · rw [idxM_set_head adj u e v rest hslot, ← hidx₁, ← hidx₂]
          simp only [idxM]
          rw [Multiset.coe_add, Multiset.coe_add, Multiset.coe_add,
            Multiset.cons_coe, Multiset.coe_eq_coe]
          simp only [List.append_assoc, List.cons_append]
          exact List.perm_middle
        · intro e' he'
          rcases List.mem_append.1 he' with h1 | h1
          · have hd := hdrain₁ e' h1
            obtain ⟨pre, hpre⟩ := hsfx₃.2.1 (g.etgt e')
            rw [hd] at hpre
            exact (List.append_eq_nil.1 hpre.symm).2
          · rcases List.mem_cons.1 h1 with h2 | h2
            · obtain ⟨pre, hpre⟩ := hsfx₃.2.1 v
              rw [hdrain₂v] at hpre
              rw [h2, hetgt]
              exact (List.append_eq_nil.1 hpre.symm).2
            · exact hdrain₂ e' h2

/-- The fresh cursor array `euler_path` builds before recursing. -/
def adj0 (g : Graph) : List (List (Nat × Nat)) :=
  (List.range g.num_v).map g.adj_list

lemma AdjRel_adj0 (g : Graph) : AdjRel g (adj0 g) := by
  intro x q hq
  by_cases hx : x < g.num_v
  · rw [show adj0 g = (List.range g.num_v).map g.adj_list from rfl,
      getD_map_range _ _ _ _ hx] at hq
    obtain ⟨he, hsrc, htgt⟩ := mem_adj_list_iff.1 ((Prod.mk.eta (p := q)) ▸ hq)
    exact ⟨he, hsrc, htgt⟩
  · rw [show adj0 g = (List.range g.num_v).map g.adj_list from rfl,
      getD_of_length_le _ _ _ (by simpa using Nat.le_of_not_lt hx)] at hq
    simp at hq

lemma flatten_map_update_perm {α : Type} (f1 f2 : Nat → List α) (a : α) (k : Nat) :
    ∀ (l : List Nat), l.Nodup → k ∈ l →
      (∀ u, f1 u = if u = k then a :: f2 u else f2 u) →
      ((l.map f1).flatten).Perm (a :: (l.map f2).flatten) := by
  intro l
  induction l with
  | nil => intro _ hk _; simp at hk
  | cons x rest ih =>
    intro hnd hk hf
    by_cases hxk : x = k
    · have hrest_eq : rest.map f1 = rest.map f2 := by
        apply List.map_congr_left
        intro y hy
        have hyk : y ≠ k := fun hyk =>
          (List.nodup_cons.1 hnd).1 (by rw [hxk, ← hyk]; exact hy)
        rw [hf y, if_neg hyk]
      rw [List.map_cons, List.flatten_cons, hf x, if_pos hxk, hrest_eq]
      simp
    · have hk' : k ∈ rest := by
        rcases List.mem_cons.1 hk with h | h
        · exact absurd h.symm hxk
        · exact h
      have hperm := ih (List.nodup_cons.1 hnd).2 hk' hf
      rw [List.map_cons, List.flatten_cons, hf x, if_neg hxk,
        List.map_cons, List.flatten_cons]
      exact (hperm.append_left (f2 x)).trans List.perm_middle

lemma range_filter_partition (key : Nat → Nat) (n : Nat) :
    ∀ (l : List Nat), (∀ a ∈ l, key a < n) →
      (((List.range n).map (fun u => l.filter (fun a => key a = u))).flatten).Perm l := by
  intro l
  induction l with
  | nil =>
    intro _
    rw [List.perm_nil, List.flatten_eq_nil_iff]
    intro lst hlst
    obtain ⟨u, -, hu⟩ := List.mem_map.1 hlst
    rw [← hu]
    rfl
  | cons a rest ih =>
    intro hkey
    have hkn : key a < n := hkey a (List.mem_cons_self a rest)
    have hupdate : ∀ u, (a :: rest).filter (fun x => key x = u) =
        if u = key a then a :: rest.filter (fun x => key x = u)
        else rest.filter (fun x => key x = u) := by
      intro u
      by_cases hu : u = key a
      · rw [if_pos hu, List.filter_cons_of_pos (by simp [hu])]
      · rw [if_neg hu, List.filter_cons_of_neg (by simp; exact fun hh => hu hh.symm)]
    have hperm := flatten_map_update_perm
      (fun u => (a :: rest).filter (fun x => key x = u))
      (fun u => rest.filter (fun x => key x = u)) a (key a)
      (List.range n) (List.nodup_range n) (List.mem_range.2 hkn) hupdate
    exact hperm.trans ((ih (fun x hx => hkey x (List.mem_cons_of_mem a hx))).cons a)

lemma adj0_flatten_perm (g : Graph) (hwf : g.WF) :
    ((adj0 g).flatten).Perm ((List.range g.num_e).map (fun e => (e, g.etgt e))) := by
  have h1 : (adj0 g).flatten =
      (((List.range g.num_v).map
          (fun u => (List.range g.num_e).filter (fun e => g.esrc e = u))).flatten).map
        (fun e => (e, g.etgt e)) := by
    rw [List.map_flatten, List.map_map]
    rfl
  rw [h1]
  exact (range_filter_partition g.esrc g.num_v (List.range g.num_e)
    (fun e he => (g.endpoints_lt hwf (List.mem_range.1 he)).1)).map _

lemma idxM_adj0 (g : Graph) (hwf : g.WF) :
    idxM (adj0 g) = ((List.range g.num_e : List Nat) : Multiset Nat) := by
  unfold idxM
  rw [Multiset.coe_eq_coe]
  have hperm := (adj0_flatten_perm g hwf).map Prod.fst
  rw [List.map_map] at hperm
  have h2 : (List.range g.num_e).map (Prod.fst ∘ fun e => (e, g.etgt e)) =
      List.range g.num_e := List.map_id' (List.range g.num_e)
  rw [h2] at hperm
  exact hperm

lemma count_map_eq_length_filter (f : Nat → Nat) (x : Nat) :
    ∀ (l : List Nat), (l.map f).count x = (l.filter (fun a => f a = x)).length := by
  intro l
  induction l with
  | nil => rfl
  | cons a rest ih =>
    rw [List.map_cons, List.count_cons, ih]
    by_cases hax : f a = x
    · rw [List.filter_cons_of_pos (by simp [hax])]
      simp [hax]
    · rw [List.filter_cons_of_neg (by simp [hax])]
      simp [hax]

lemma outDeg_adj0 (g : Graph) (hwf : g.WF) (x : Nat) :
    outDeg (adj0 g) x = ((List.range g.num_e).filter (fun e => g.esrc e = x)).length := by
  unfold outDeg
  by_cases hx : x < g.num_v
  · rw [show adj0 g = (List.range g.num_v).map g.adj_list from rfl,
      getD_map_range _ _ _ _ hx]
    unfold Graph.adj_list
    rw [List.length_map]
  · rw [show adj0 g = (List.range g.num_v).map g.adj_list from rfl,
      getD_of_length_le _ _ _ (by simpa using Nat.le_of_not_lt hx)]
    have : (List.range g.num_e).filter (fun e => g.esrc e = x) = [] := by
      rw [List.filter_eq_nil_iff]
      intro e he
      have := (g.endpoints_lt hwf (List.mem_range.1 he)).1
      simp only [decide_eq_true_eq]
      omega
    rw [this]
    rfl

lemma tgtCount_adj0 (g : Graph) (hwf : g.WF) (x : Nat) :
    tgtCount (adj0 g) x = ((List.range g.num_e).filter (fun e => g.etgt e = x)).length := by
  unfold tgtCount
  have hperm := ((adj0_flatten_perm g hwf).map Prod.snd).count_eq x
  rw [List.map_map] at hperm
  rw [hperm]
  have h2 : ((List.range g.num_e).map (Prod.snd ∘ fun e => (e, g.etgt e))) =
      (List.range g.num_e).map (fun e => g.etgt e) := rfl
  rw [h2, count_map_eq_length_filter]

lemma walk_balance (g : Graph) :
    ∀ (w : List Nat) (s t : Nat), isWalkFromB g s t w = true →
      ∀ x, ((w.filter (fun e => g.esrc e = x)).length : Int) -
          ((w.filter (fun e => g.etgt e = x)).length : Int) =
        (if x = s then 1 else 0) - (if x = t then 1 else 0) := by
  intro w
  induction w with
  | nil =>
    intro s t h x
    rw [isWalkFromB_nil] at h
    have hst : s = t := by simpa using h
    simp only [List.filter_nil, List.length_nil, Nat.cast_zero, hst]
    split_ifs <;> omega
  | cons e w ih =>
    intro s t h x
    rw [isWalkFromB_cons, Bool.and_eq_true] at h
    obtain ⟨hsrcb, hrest⟩ := h
    have hsrc : g.esrc e = s := by simpa using hsrcb
    have hih := ih (g.etgt e) t hrest x
    have hlen1 : ((e :: w).filter (fun e' => g.esrc e' = x)).length =
        (w.filter (fun e' => g.esrc e' = x)).length + (if g.esrc e = x then 1 else 0) := by
      by_cases hsx : g.esrc e = x
      · rw [List.filter_cons_of_pos (by simp [hsx]), if_pos hsx]
        simp
      · rw [List.filter_cons_of_neg (by simp [hsx]), if_neg hsx]
        simp
    have hlen2 : ((e :: w).filter (fun e' => g.etgt e' = x)).length =
        (w.filter (fun e' => g.etgt e' = x)).length + (if g.etgt e = x then 1 else 0) := by
      by_cases htx : g.etgt e = x
      · rw [List.filter_cons_of_pos (by simp [htx]), if_pos htx]
        simp
      · rw [List.filter_cons_of_neg (by simp [htx]), if_neg htx]
        simp
    rw [hlen1, hlen2]
    push_cast
    split_ifs at hih ⊢ <;> omega

lemma quasiBal_adj0_of_walk (g : Graph) (hwf : g.WF) (w : List Nat)
    (s t : Nat) (hperm : w.Perm (List.range g.num_e))
    (hwalk : isWalkFromB g s t w = true) : quasiBal (adj0 g) s t := by
  intro x
  unfold balInt
  rw [outDeg_adj0 g hwf x, tgtCount_adj0 g hwf x,
    ← (hperm.filter (fun e => g.esrc e = x)).length_eq,
    ← (hperm.filter (fun e => g.etgt e = x)).length_eq]
  exact walk_balance g w s t hwalk x

lemma drained_source_not_mem (g : Graph) (adj' : List (List (Nat × Nat)))
    (hrel' : AdjRel g adj') (x : Nat) (hdrained : adj'.getD x [] = []) :
    ∀ e', g.esrc e' = x → e' ∉ adj'.flatten.map Prod.fst := by
  intro e' hsrc hmem
  obtain ⟨q, hq, hq1⟩ := List.mem_map.1 hmem
  obtain ⟨lst, hlst, hqlst⟩ := List.mem_flatten.1 hq
  obtain ⟨y, hy, hlst_eq⟩ := List.mem_iff_getElem.1 hlst
  have hq_in : q ∈ adj'.getD y [] := by
    rw [List.getD_eq_getElem _ _ hy, hlst_eq]
    exact hqlst
  obtain ⟨-, hsrc_y, -⟩ := hrel' y q hq_in
  have hyx : y = x := by rw [← hsrc_y, hq1, hsrc]
  rw [hyx, hdrained] at hq_in
  simp at hq_in

lemma walk_edges_in_P (g : Graph) (adj' : List (List (Nat × Nat)))
    (hrel' : AdjRel g adj') (P : List Nat)
    (hcount : ∀ e', P.count e' + (adj'.flatten.map Prod.fst).count e' =
      (List.range g.num_e).count e')
    (hdrainP : ∀ e' ∈ P, adj'.getD (g.etgt e') [] = []) :
    ∀ (w : List Nat) (x t' : Nat), isWalkFromB g x t' w = true →
      adj'.getD x [] = [] → (∀ e' ∈ w, e' < g.num_e) →
      ∀ e' ∈ w, e' ∈ P := by
  intro w
  induction w with
  | nil => intro x t' _ _ _ e' he'; simp at he'
  | cons e wrest ih =>
    intro x t' hwalk hdrained hbound e' he'
    rw [isWalkFromB_cons, Bool.and_eq_true] at hwalk
    have hesrc : g.esrc e = x := by simpa using hwalk.1
    have heP : e ∈ P := by
      have hnot := drained_source_not_mem g adj' hrel' x hdrained e hesrc
      have hc0 : (adj'.flatten.map Prod.fst).count e = 0 :=
        List.count_eq_zero.2 hnot
      have hcnt := hcount e
      have hrange : (List.range g.num_e).count e = 1 := by
        rw [List.count_eq_of_nodup (List.nodup_range _),
          if_pos (List.mem_range.2 (hbound e (List.mem_cons_self e wrest)))]
      rw [hc0, hrange] at hcnt
      exact List.count_pos_iff.1 (by omega)
    rcases List.mem_cons.1 he' with h1 | h1
    · rw [h1]
      exact heP
    · exact ih (g.etgt e) t' hwalk.2 (hdrainP e heP)
        (fun e'' he'' => hbound e'' (List.mem_cons_of_mem e he'')) e' h1

/-- Claim C9: for every well-formed directed graph that admits an Eulerian
path starting at a vertex `start`, `euler_path(start)` returns an edge-index
sequence that uses every edge index exactly once and forms a connected walk
beginning at `start`; in particular, on the 3-vertex test graph with edges
`(0→1), (1→0), (1→2), (2→1)` added in that order, `euler_path(0)`
returns `[0, 2, 3, 1]`. -/
theorem euler_path_spec :
    (∀ (g : Graph) (start : Nat), g.WF → start < g.num_v →
        (∃ w, EulerSpec g start w) → EulerSpec g start (euler_path g start)) ∧
      euler_path gEuler 0 = [0, 2, 3, 1] := by
  constructor
  · intro g start hwf hstart hex
    obtain ⟨w, hwperm, t, hwalk⟩ := hex
    have hrel0 : AdjRel g (adj0 g) := AdjRel_adj0 g
    have hbal0 : quasiBal (adj0 g) start t :=
      quasiBal_adj0_of_walk g hwf w start t hwperm hwalk
    have hsome := euler_recurse_isSome (euler_fuel (adj0 g)) (adj0 g)
      (Nat.lt_succ_self _) start []
    cases hrun : euler_recurse (euler_fuel (adj0 g)) start (adj0 g) [] with
    | none =>
      rw [hrun] at hsome
      exact absurd hsome (by simp)
    | some pr =>
      obtain ⟨adj', acc'⟩ := pr
      obtain ⟨P, hP, hwalkP, hbal', hdrainS, hidx, hdrainP⟩ :=
        euler_recurse_spec g (euler_fuel (adj0 g)) start t (adj0 g) [] adj' acc'
          hrun hrel0 hbal0
      have hout : euler_path g start = P.reverse := by
        show (match euler_recurse (euler_fuel (adj0 g)) start (adj0 g) [] with
          | some (_, edges) => edges.reverse
          | none => []) = P.reverse
        rw [hrun]
        simp [hP]
      have hidx' : (P : Multiset Nat) + idxM adj' =
          ((List.range g.num_e : List Nat) : Multiset Nat) := by
        rw [hidx, idxM_adj0 g hwf]
      have hrel' : AdjRel g adj' := hrel0.of_suffixwise
        (euler_recurse_flatten_suffix (euler_fuel (adj0 g)) start (adj0 g) []
          adj' acc' hrun).2.1
      have hcount : ∀ e', P.count e' + (adj'.flatten.map Prod.fst).count e' =
          (List.range g.num_e).count e' := by
        intro e'
        have hc := congrArg (Multiset.count e') hidx'
        rw [Multiset.count_add] at hc
        simp only [idxM] at hc
        rw [Multiset.coe_count, Multiset.coe_count, Multiset.coe_count] at hc
        exact hc
      have hWbound : ∀ e' ∈ w, e' < g.num_e := fun e' he' =>
        List.mem_range.1 (hwperm.mem_iff.1 he')
      have hall : ∀ e' ∈ w, e' ∈ P :=
        walk_edges_in_P g adj' hrel' P hcount hdrainP w start t hwalk hdrainS hWbound
      have hPperm : P.Perm (List.range g.num_e) := by
        rw [← Multiset.coe_eq_coe]
        apply Multiset.ext'
        intro a
        rw [Multiset.coe_count, Multiset.coe_count]
        have hc := hcount a
        by_cases ha : a < g.num_e
        · have hmem : a ∈ P := hall a (hwperm.mem_iff.2 (List.mem_range.2 ha))
          have h1 : 0 < P.count a := List.count_pos_iff.2 hmem
          have hrange : (List.range g.num_e).count a = 1 := by
            rw [List.count_eq_of_nodup (List.nodup_range _),
              if_pos (List.mem_range.2 ha)]
          omega
        · have hrange : (List.range g.num_e).count a = 0 := by
            rw [List.count_eq_of_nodup (List.nodup_range _),
              if_neg (by simpa using ha)]
          omega
      refine ⟨?_, t, ?_⟩
      · rw [hout]
        exact (List.reverse_perm P).trans hPperm
      · rw [hout]
        exact hwalkP
  · decide

/-- Witness for `euler_path_spec` at the concrete 3-vertex test graph: the
Eulerian-path precondition is discharged with the explicit walk
`[0, 2, 3, 1]` ending back at vertex 0. -/
theorem euler_path_spec_witness :
    gEuler.WF ∧ 0 < gEuler.num_v ∧ EulerSpec gEuler 0 [0, 2, 3, 1] ∧
      EulerSpec gEuler 0 (euler_path gEuler 0) :=
  ⟨by decide, by decide, ⟨by decide, 0, by decide⟩,
    euler_path_spec.1 gEuler 0 (by decide) (by decide)
      ⟨[0, 2, 3, 1], by decide, 0, by decide⟩⟩

end RustArs
